import Mathlib

/-!
# Verification of the commit-graph rewriting core

A shallow embedding of `cli/src/commands/rebase.rs` (destination resolution,
move-commits planning, the rewrite executor) and
`cli/src/commands/operation/diff.rs` (operation diff computation) of the
`jj` repository, together with theorems settling the specification claims.

Commit ids and change ids are modelled as natural numbers; a repository
snapshot is a list of commits (the revset evaluation order of the index,
i.e. reverse topological order: children before parents).
-/

set_option maxHeartbeats 1000000

namespace JJ

/-- A commit record: content-addressed id, ordered parent list, change id.
The tree is irrelevant to the verified claims and is omitted. -/
structure Commit where
  id : Nat
  parents : List Nat
  changeId : Nat
  deriving Repr, DecidableEq

/-- A repository commit index: all commits, in reverse topological order
(children before parents), the order in which revsets are enumerated. -/
abbrev Dag := List Commit

/-- Ids of a list of commits (`commits.iter().ids()`). -/
def idsOf (cs : List Commit) : List Nat := cs.map (·.id)

/-- Parent ids of a commit id as recorded in the index
(commits absent from the index have no recorded parents). -/
def parentsOf (g : Dag) (x : Nat) : List Nat :=
  match g.find? (fun c => c.id = x) with
  | some c => c.parents
  | none => []

/-- Fuel-bounded reachability: `reachableFuel g n a b = true` iff walking up
through parent edges from `b` reaches `a` in at most `n` steps.  This is the
semantics of the index ancestry queries used by the revset engine. -/
def reachableFuel (g : Dag) : Nat → Nat → Nat → Bool
  | 0, a, b => a = b
  | n + 1, a, b => a = b || (parentsOf g b).any (fun p => reachableFuel g n a p)

/-- `repo.index().is_ancestor(a, b)`: `a` is an ancestor of `b` (reflexively).
Any reachable commit is reachable within `g.length` edge steps
(`reachableFuel_saturate` below). -/
def isAncestor (g : Dag) (a b : Nat) : Bool := reachableFuel g g.length a b

/-- The property that the index is listed in reverse topological order:
a commit never appears after one of its children. -/
abbrev RevTopo (g : Dag) : Prop := g.Pairwise (fun a b => a.id ∉ b.parents)

/-- Well-formed index: commit ids are unique. -/
abbrev NodupIds (g : Dag) : Prop := (g.map (·.id)).Nodup

/-! ## Walks: paths witnessing reachability -/

/-- `walkUp g a b l`: starting at `b` and taking the successive parent steps
listed in `l` ends at `a`. -/
def walkUp (g : Dag) (a : Nat) : Nat → List Nat → Prop
  | b, [] => a = b
  | b, p :: l => p ∈ parentsOf g b ∧ walkUp g a p l

theorem reachableFuel_iff_walkUp (g : Dag) (n a : Nat) :
    ∀ b, reachableFuel g n a b = true ↔ ∃ l : List Nat, l.length ≤ n ∧ walkUp g a b l := by
  induction n with
  | zero =>
    intro b
    constructor
    · intro h
      exact ⟨[], le_refl 0, by simpa [reachableFuel] using h⟩
    · rintro ⟨l, hl, hw⟩
      have : l = [] := List.length_eq_zero.mp (Nat.le_zero.mp hl)
      subst this
      simpa [reachableFuel] using hw
  | succ n ih =>
    intro b
    constructor
    · intro h
      rcases (by simpa [reachableFuel, List.any_eq_true] using h :
          a = b ∨ ∃ p ∈ parentsOf g b, reachableFuel g n a p = true) with h | ⟨p, hp, hr⟩
      · exact ⟨[], Nat.zero_le _, h⟩
      · obtain ⟨l, hl, hw⟩ := (ih p).mp hr
        exact ⟨p :: l, by simpa using Nat.succ_le_succ hl, hp, hw⟩
    · rintro ⟨l, hl, hw⟩
      match l, hw with
      | [], hw =>
        simp [reachableFuel, hw.symm]
      | p :: l, ⟨hp, hw⟩ =>
        have : reachableFuel g n a p = true := (ih p).mpr ⟨l, by simpa using Nat.le_of_succ_le_succ hl, hw⟩
        simp only [reachableFuel, Bool.or_eq_true, List.any_eq_true]
        exact Or.inr ⟨p, hp, this⟩

theorem reachableFuel_mono (g : Dag) {m n a b : Nat} (hmn : m ≤ n)
    (h : reachableFuel g m a b = true) : reachableFuel g n a b = true := by
  obtain ⟨l, hl, hw⟩ := (reachableFuel_iff_walkUp g m a b).mp h
  exact (reachableFuel_iff_walkUp g n a b).mpr ⟨l, le_trans hl hmn, hw⟩

theorem walkUp_append (g : Dag) (a b : Nat) (u v : List Nat) :
    walkUp g a b (u ++ v) ↔ ∃ m, walkUp g m b u ∧ walkUp g a m v := by
  induction u generalizing b with
  | nil =>
    constructor
    · intro h
      exact ⟨b, rfl, h⟩
    · rintro ⟨m, hm, hv⟩
      cases hm
      exact hv
  | cons p u ih =>
    constructor
    · rintro ⟨hp, hw⟩
      obtain ⟨m, hm, hv⟩ := (ih p).mp hw
      exact ⟨m, ⟨hp, hm⟩, hv⟩
    · rintro ⟨m, ⟨hp, hm⟩, hv⟩
      exact ⟨hp, (ih p).mpr ⟨m, hm, hv⟩⟩

theorem walkUp_singleton (g : Dag) (a b x : Nat) :
    walkUp g a b [x] ↔ x ∈ parentsOf g b ∧ a = x := Iff.rfl

/-- Every vertex of a walk that takes a step is present in the index. -/
theorem walkUp_sources_mem (g : Dag) (a : Nat) :
    ∀ (l : List Nat) (b : Nat), walkUp g a b l → l ≠ [] → b ∈ g.map (·.id) := by
  intro l b hw hne
  match l, hw with
  | p :: l, ⟨hp, _⟩ =>
    have hnil : parentsOf g b ≠ [] := by
      intro h
      rw [h] at hp
      exact absurd hp (List.not_mem_nil p)
    unfold parentsOf at hnil
    cases hfind : g.find? (fun c => c.id = b) with
    | none => rw [hfind] at hnil; exact absurd rfl hnil
    | some c =>
      have hc := List.find?_some hfind
      have hcm := List.mem_of_find?_eq_some hfind
      simp only [decide_eq_true_eq] at hc
      exact List.mem_map.mpr ⟨c, hcm, hc⟩

/-- The final vertex of a nonempty walk is its last step. -/
theorem walkUp_getLast (g : Dag) (a : Nat) :
    ∀ (l : List Nat) (b : Nat), walkUp g a b l → l ≠ [] → a ∈ l := by
  intro l
  induction l with
  | nil => intro b _ h; exact absurd rfl h
  | cons p l ih =>
    intro b hw _
    rcases hw with ⟨_, hw⟩
    cases l with
    | nil => cases hw; exact List.mem_singleton.mpr rfl
    | cons q l => exact List.mem_cons_of_mem p (ih p hw (by simp))

/-- Every vertex touched by a walk lies in the index, except possibly the
final destination `a`. -/
theorem walkUp_vertices_mem (g : Dag) (a : Nat) :
    ∀ (l : List Nat) (b : Nat), walkUp g a b l → ∀ x ∈ b :: l, x ∈ a :: g.map (·.id) := by
  intro l
  induction l with
  | nil =>
    intro b hw x hx
    rcases List.mem_singleton.mp hx with rfl
    cases hw
    exact List.mem_cons_self _ _
  | cons p l ih =>
    intro b hw x hx
    rcases List.mem_cons.mp hx with rfl | hx
    · exact List.mem_cons_of_mem a
        (walkUp_sources_mem g a (p :: l) x hw (by simp))
    · exact ih p hw.2 x hx

theorem two_le_count_split {α : Type} [DecidableEq α] (x : α) :
    ∀ L : List α, 2 ≤ L.count x → ∃ l1 l2 l3, L = l1 ++ x :: l2 ++ x :: l3 := by
  intro L
  induction L with
  | nil => intro h; simp at h
  | cons y L ih =>
    intro h
    by_cases hy : y = x
    · subst hy
      have hc : 1 ≤ L.count y := by
        have := List.count_cons_self y L
        omega
      obtain ⟨l2, l3, rfl⟩ := List.append_of_mem (List.count_pos_iff.mp hc)
      exact ⟨[], l2, l3, rfl⟩
    · have hc : 2 ≤ L.count x := by
        have := List.count_cons x y L
        simp [hy] at this
        omega
      obtain ⟨l1, l2, l3, rfl⟩ := ih hc
      exact ⟨y :: l1, l2, l3, rfl⟩

/-- A walk that repeats a vertex can be strictly shortened. -/
theorem walkUp_shorten_dup (g : Dag) (a b : Nat) (l : List Nat)
    (hw : walkUp g a b l) (hd : ¬ (b :: l).Nodup) :
    ∃ l2, l2.length < l.length ∧ walkUp g a b l2 := by
  have hx : ∃ x, 2 ≤ (b :: l).count x := by
    by_contra hno
    push_neg at hno
    exact hd (List.nodup_iff_count_le_one.mpr (fun x => by have := hno x; omega))
  obtain ⟨x, hx⟩ := hx
  obtain ⟨l1, l2, l3, heq⟩ := two_le_count_split x (b :: l) hx
  cases l1 with
  | nil =>
    rw [List.nil_append] at heq
    injection heq with hb hl
    rw [hl] at hw
    obtain ⟨m, _, hv⟩ := (walkUp_append g a b l2 (x :: l3)).mp hw
    have hv2 : walkUp g a b l3 := by
      rw [hb]
      exact hv.2
    refine ⟨l3, ?_, hv2⟩
    rw [hl]
    simp
    omega
  | cons y l1 =>
    rw [List.cons_append] at heq
    injection heq with hb hl
    rw [hl] at hw
    have hw1 : walkUp g a b ((l1 ++ [x]) ++ (l2 ++ x :: l3)) := by
      simpa using hw
    obtain ⟨m, hm1, hm2⟩ := (walkUp_append g a b (l1 ++ [x]) (l2 ++ x :: l3)).mp hw1
    obtain ⟨m1, hm11, hm12⟩ := (walkUp_append g m b l1 [x]).mp hm1
    obtain ⟨hpm, hmx⟩ := (walkUp_singleton g m m1 x).mp hm12
    obtain ⟨m2, hm21, hm22⟩ := (walkUp_append g a m l2 (x :: l3)).mp hm2
    have hw2 : walkUp g a m l3 := by
      rw [hmx]
      exact hm22.2
    refine ⟨(l1 ++ [x]) ++ l3, ?_, ?_⟩
    · rw [hl]
      simp
      omega
    · exact (walkUp_append g a b (l1 ++ [x]) l3).mpr ⟨m, hm1, hw2⟩

/-- Every walk can be shortened to one of at most `g.length` steps. -/
theorem walkUp_shorten (g : Dag) (a b : Nat) :
    ∀ (n : Nat) (l : List Nat), l.length ≤ n → walkUp g a b l →
      ∃ l2, l2.length ≤ g.length ∧ walkUp g a b l2 := by
  intro n
  induction n with
  | zero =>
    intro l hl hw
    exact ⟨l, by omega, hw⟩
  | succ n ih =>
    intro l hl hw
    by_cases hsmall : l.length ≤ g.length
    · exact ⟨l, hsmall, hw⟩
    · have hsub : (b :: l) ⊆ a :: g.map (·.id) :=
        fun x hx => walkUp_vertices_mem g a l b hw x hx
      have hd : ¬ (b :: l).Nodup := by
        intro hnd
        have := (List.subperm_of_subset hnd hsub).length_le
        simp at this
        omega
      obtain ⟨l2, hlt, hw2⟩ := walkUp_shorten_dup g a b l hw hd
      exact ih l2 (by omega) hw2

/-- Saturation: a reachability fact at any fuel holds at fuel `g.length`,
i.e. is an `isAncestor` fact. -/
theorem reachableFuel_saturate (g : Dag) {n a b : Nat}
    (h : reachableFuel g n a b = true) : isAncestor g a b = true := by
  obtain ⟨l, hl, hw⟩ := (reachableFuel_iff_walkUp g n a b).mp h
  obtain ⟨l2, hl2, hw2⟩ := walkUp_shorten g a b l.length l (le_refl _) hw
  exact (reachableFuel_iff_walkUp g g.length a b).mpr ⟨l2, hl2, hw2⟩

theorem isAncestor_refl (g : Dag) (a : Nat) : isAncestor g a a = true := by
  unfold isAncestor
  cases g.length with
  | zero => simp [reachableFuel]
  | succ n => simp [reachableFuel]

theorem isAncestor_trans (g : Dag) {a b c : Nat}
    (h1 : isAncestor g a b = true) (h2 : isAncestor g b c = true) :
    isAncestor g a c = true := by
  obtain ⟨l1, _, hw1⟩ := (reachableFuel_iff_walkUp g g.length a b).mp h1
  obtain ⟨l2, _, hw2⟩ := (reachableFuel_iff_walkUp g g.length b c).mp h2
  have hw : walkUp g a c (l2 ++ l1) := (walkUp_append g a c l2 l1).mpr ⟨b, hw2, hw1⟩
  exact reachableFuel_saturate g
    ((reachableFuel_iff_walkUp g (l2 ++ l1).length a c).mpr ⟨l2 ++ l1, le_refl _, hw⟩)

/-- A direct parent is an ancestor. -/
theorem isAncestor_of_parent (g : Dag) {p b : Nat} (h : p ∈ parentsOf g b) :
    isAncestor g p b = true := by
  refine reachableFuel_saturate g (n := 1) ?_
  simp only [reachableFuel, Bool.or_eq_true, List.any_eq_true]
  exact Or.inr ⟨p, h, by simp⟩

/-- For a well-formed index, looking a member commit up by id finds it. -/
theorem find?_id_of_mem {g : Dag} (hno : NodupIds g) {c : Commit} (hc : c ∈ g) :
    g.find? (fun k => k.id = c.id) = some c := by
  induction g with
  | nil => cases hc
  | cons d g ih =>
    rcases List.mem_cons.mp hc with rfl | hc
    · simp [List.find?]
    · have hne : ¬ (d.id = c.id) := by
        intro h
        have : c.id ∈ g.map (·.id) := List.mem_map.mpr ⟨c, hc, rfl⟩
        rw [← h] at this
        exact (List.nodup_cons.mp hno).1 this
      rw [List.find?_cons_of_neg _ (by simpa using hne)]
      exact ih (List.nodup_cons.mp hno).2 hc

theorem parentsOf_eq_of_mem {g : Dag} (hno : NodupIds g) {c : Commit} (hc : c ∈ g) :
    parentsOf g c.id = c.parents := by
  unfold parentsOf
  rw [find?_id_of_mem hno hc]

/-! ## Association lists and insertion-ordered sets

`HashMap` / `IndexMap` / `IndexSet` values from the source are modelled as
association lists with first-match lookup and insertion-ordered no-duplicate
append. -/

/-- First-match lookup in an association list. -/
def alookup {β : Type} (k : Nat) : List (Nat × β) → Option β
  | [] => none
  | p :: l => if p.1 = k then some p.2 else alookup k l

theorem alookup_eq_none {β : Type} (k : Nat) :
    ∀ l : List (Nat × β), (∀ p ∈ l, p.1 ≠ k) → alookup k l = none := by
  intro l
  induction l with
  | nil => intro _; rfl
  | cons p l ih =>
    intro h
    simp only [alookup]
    rw [if_neg (h p (List.mem_cons_self p l))]
    exact ih (fun q hq => h q (List.mem_cons_of_mem p hq))

theorem alookup_isSome_iff {β : Type} (k : Nat) :
    ∀ l : List (Nat × β), (alookup k l).isSome = true ↔ k ∈ l.map (·.1) := by
  intro l
  induction l with
  | nil => simp [alookup]
  | cons p l ih =>
    by_cases h : p.1 = k
    · simp [alookup, h]
    · simp only [alookup, if_neg h, List.map_cons, List.mem_cons]
      rw [ih]
      constructor
      · exact Or.inr
      · rintro (h1 | h1)
        · exact absurd h1.symm h
        · exact h1

/-- `IndexSet::insert`: append if not already present. -/
def idxInsert (s : List Nat) (x : Nat) : List Nat :=
  if x ∈ s then s else s ++ [x]

/-- `IndexSet::extend`. -/
def idxExtend (s : List Nat) (l : List Nat) : List Nat := l.foldl idxInsert s

/-- Collecting an iterator into an `IndexSet`. -/
def idxFromList (l : List Nat) : List Nat := idxExtend [] l

/-- Keep the first occurrence of every element (the specification notion of
"the de-duplicated list"). -/
def dedupFirst : List Nat → List Nat
  | [] => []
  | x :: l => x :: dedupFirst (l.filter (fun y => y ≠ x))
  termination_by l => l.length
  decreasing_by
    simp only [List.length_cons]
    exact Nat.lt_succ_of_le (List.length_filter_le _ _)

theorem dedupFirst_nil : dedupFirst [] = [] := by
  rw [dedupFirst]

theorem dedupFirst_cons (x : Nat) (l : List Nat) :
    dedupFirst (x :: l) = x :: dedupFirst (l.filter (fun y => y ≠ x)) := by
  rw [dedupFirst]

theorem idxExtend_acc (l : List Nat) :
    ∀ acc : List Nat, idxExtend acc l = acc ++ dedupFirst (l.filter (fun x => x ∉ acc)) := by
  induction l with
  | nil => intro acc; simp [idxExtend, dedupFirst_nil]
  | cons x l ih =>
    intro acc
    by_cases hx : x ∈ acc
    · have h1 : idxExtend acc (x :: l) = idxExtend acc l := by
        simp [idxExtend, idxInsert, hx]
      rw [h1, ih acc, List.filter_cons]
      simp [hx]
    · have h1 : idxExtend acc (x :: l) = idxExtend (acc ++ [x]) l := by
        simp [idxExtend, idxInsert, hx]
      rw [h1, ih (acc ++ [x]), List.filter_cons]
      rw [if_pos (by simpa using hx)]
      rw [dedupFirst_cons, List.append_assoc, List.singleton_append]
      congr 2
      rw [List.filter_filter]
      congr 1
      apply List.filter_congr
      intro y _
      by_cases h1 : y = x <;> by_cases h2 : y ∈ acc <;>
        simp [List.mem_append, h1, h2]

theorem idxFromList_eq_dedupFirst (l : List Nat) : idxFromList l = dedupFirst l := by
  rw [idxFromList, idxExtend_acc]
  simp

/-- `itertools::unique()`: keep first occurrences, tracked by a seen-set. -/
def uniqueAux (seen : List Nat) : List Nat → List Nat
  | [] => []
  | x :: l => if x ∈ seen then uniqueAux seen l else x :: uniqueAux (x :: seen) l

def uniqueList (l : List Nat) : List Nat := uniqueAux [] l

theorem uniqueAux_eq (l : List Nat) :
    ∀ seen : List Nat, uniqueAux seen l = dedupFirst (l.filter (fun x => x ∉ seen)) := by
  induction l with
  | nil => intro seen; simp [uniqueAux, dedupFirst]
  | cons x l ih =>
    intro seen
    by_cases hx : x ∈ seen
    · rw [List.filter_cons]
      rw [if_neg (by simpa using hx)]
      simp only [uniqueAux, if_pos hx]
      exact ih seen
    · rw [List.filter_cons]
      rw [if_pos (by simpa using hx)]
      simp only [uniqueAux, if_neg hx]
      rw [dedupFirst_cons]
      congr 1
      rw [ih (x :: seen), List.filter_filter]
      congr 1
      apply List.filter_congr
      intro y _
      by_cases h1 : y = x <;> by_cases h2 : y ∈ seen <;>
        simp [h1, h2]

theorem uniqueList_eq_dedupFirst (l : List Nat) : uniqueList l = dedupFirst l := by
  rw [uniqueList, uniqueAux_eq]
  simp

/-! ## Operation diff (`cli/src/commands/operation/diff.rs`) -/

/-- `ModifiedChange`: the commits added and removed for one change id. -/
structure ModifiedChange where
  added_commits : List Commit
  removed_commits : List Commit
  deriving Repr, DecidableEq

/-- `walk_revs(repo, heads, roots)`: commits reachable from `heads` but not
from `roots`, enumerated in index (reverse topological) order. -/
def walkRevs (g : Dag) (heads roots : List Nat) : List Commit :=
  g.filter (fun c =>
    heads.any (fun h => isAncestor g c.id h) &&
    !(roots.any (fun h => isAncestor g c.id h)))

/-- `changes.entry(change_id).or_insert_with(empty).<update>`: update the
first bucket with the given change id, or append a fresh bucket. -/
def bucketUpd (cid : Nat) (f : ModifiedChange → ModifiedChange) :
    List (Nat × ModifiedChange) → List (Nat × ModifiedChange)
  | [] => [(cid, f ⟨[], []⟩)]
  | p :: l => if p.1 = cid then (p.1, f p.2) :: l else p :: bucketUpd cid f l

/-- `compute_operation_commits_diff`: bucket, per change id, the commits
added (visible from `to` but not `from`) and removed (visible from `from`
but not `to`).  The two snapshots share the merged commit index `g` and are
given by their head sets. -/
def compute_operation_commits_diff (g : Dag) (fromHeads toHeads : List Nat) :
    List (Nat × ModifiedChange) :=
  let b1 := (walkRevs g toHeads fromHeads).foldl
    (fun b c => bucketUpd c.changeId
      (fun mc => { mc with added_commits := mc.added_commits ++ [c] }) b) []
  (walkRevs g fromHeads toHeads).foldl
    (fun b c => bucketUpd c.changeId
      (fun mc => { mc with removed_commits := mc.removed_commits ++ [c] }) b) b1

/-- All commits placed in added buckets. -/
def allAdded (buckets : List (Nat × ModifiedChange)) : List Commit :=
  buckets.flatMap (fun p => p.2.added_commits)

/-- All commits placed in removed buckets. -/
def allRemoved (buckets : List (Nat × ModifiedChange)) : List Commit :=
  buckets.flatMap (fun p => p.2.removed_commits)

/-- The `commit_id → change_id` map built in `show_op_diff` over every
commit appearing in any bucket. -/
def commit_id_change_id_map (changes : List (Nat × ModifiedChange)) : List (Nat × Nat) :=
  changes.flatMap (fun p =>
    p.2.added_commits.map (fun c => (c.id, p.1)) ++
    p.2.removed_commits.map (fun c => (c.id, p.1)))

/-- `get_parent_changes`: change ids of the parents of the added commits
(or of the removed commits when no commit was added), each mapped through
the commit-id → change-id map, de-duplicated by `itertools::unique()`. -/
def get_parent_changes (modified_change : ModifiedChange)
    (m : List (Nat × Nat)) : List Nat :=
  if ¬ modified_change.added_commits.isEmpty then
    uniqueList ((modified_change.added_commits.flatMap (fun c => c.parents)).filterMap
      (fun parent_id => alookup parent_id m))
  else
    uniqueList ((modified_change.removed_commits.flatMap (fun c => c.parents)).filterMap
      (fun parent_id => alookup parent_id m))

/-- The claim's phrasing of `get_parent_changes`: the de-duplicated list of
change ids obtained by mapping the parent commit ids of all added commits
(if the added set is non-empty, otherwise of all removed commits) through
the map; parent ids absent from the map contribute nothing. -/
def get_parent_changes_spec (modified_change : ModifiedChange)
    (m : List (Nat × Nat)) : List Nat :=
  let source := if modified_change.added_commits ≠ []
    then modified_change.added_commits else modified_change.removed_commits
  dedupFirst ((source.flatMap (fun c => c.parents)).filterMap
    (fun parent_id => alookup parent_id m))

/-- The content-diff selection of `show_change_diff`. -/
inductive ChangeDiff where
  | rebasedDiff (removed added : Commit)
  | patchAdded (c : Commit)
  | patchRemoved (c : Commit)
  | summaryOnly
  deriving Repr, DecidableEq

/-- Placeholder commit for (unreachable) out-of-bounds indexing. -/
def dummyCommit : Commit := ⟨0, [], 0⟩

/-- `show_change_diff`: which content diff is rendered for a
`ModifiedChange` (mirrors the `if`/`else if` chain on the lengths of the
added and removed lists). -/
def show_change_diff (mc : ModifiedChange) : ChangeDiff :=
  if mc.added_commits.length = 1 ∧ mc.removed_commits.length = 1 then
    ChangeDiff.rebasedDiff (mc.removed_commits.headD dummyCommit)
      (mc.added_commits.headD dummyCommit)
  else if mc.added_commits.length = 1 then
    ChangeDiff.patchAdded (mc.added_commits.headD dummyCommit)
  else if mc.removed_commits.length = 1 then
    ChangeDiff.patchRemoved (mc.removed_commits.headD dummyCommit)
  else
    ChangeDiff.summaryOnly

/-- The amended selection rule, written by cardinality cases: 1 added and 1
removed gives the rebased tree diff; 1 added with any other removed count
gives the added commit's patch; 1 removed with any other added count gives
the removed commit's patch; anything else shows only the summary. -/
def show_change_diff_amended (mc : ModifiedChange) : ChangeDiff :=
  match mc.added_commits, mc.removed_commits with
  | [a], [r] => ChangeDiff.rebasedDiff r a
  | [a], _ => ChangeDiff.patchAdded a
  | _, [r] => ChangeDiff.patchRemoved r
  | _, _ => ChangeDiff.summaryOnly

/-! ## Bookkeeping lemmas for the bucket folds -/

theorem allAdded_bucketUpd_add (cid : Nat) (c : Commit) :
    ∀ b : List (Nat × ModifiedChange),
      (↑(allAdded (bucketUpd cid
          (fun mc => { mc with added_commits := mc.added_commits ++ [c] }) b)) :
        Multiset Commit) = ↑(allAdded b) + {c} := by
  intro b
  induction b with
  | nil => simp [bucketUpd, allAdded]
  | cons p l ih =>
    simp only [allAdded, ← Multiset.coe_singleton] at ih
    by_cases h : p.1 = cid
    · simp only [bucketUpd, if_pos h, allAdded, List.flatMap_cons,
        ← Multiset.coe_add, ← Multiset.coe_singleton]
      abel
    · simp only [bucketUpd, if_neg h, allAdded, List.flatMap_cons,
        ← Multiset.coe_add, ← Multiset.coe_singleton]
      rw [ih]
      abel

theorem allAdded_bucketUpd_removed (cid : Nat) (c : Commit) :
    ∀ b : List (Nat × ModifiedChange),
      allAdded (bucketUpd cid
          (fun mc => { mc with removed_commits := mc.removed_commits ++ [c] }) b) =
        allAdded b := by
  intro b
  induction b with
  | nil => simp [bucketUpd, allAdded]
  | cons p l ih =>
    by_cases h : p.1 = cid
    · simp [bucketUpd, if_pos h, allAdded]
    · simp only [bucketUpd, if_neg h, allAdded, List.flatMap_cons]
      simp only [allAdded] at ih
      rw [ih]

theorem allRemoved_bucketUpd_removed (cid : Nat) (c : Commit) :
    ∀ b : List (Nat × ModifiedChange),
      (↑(allRemoved (bucketUpd cid
          (fun mc => { mc with removed_commits := mc.removed_commits ++ [c] }) b)) :
        Multiset Commit) = ↑(allRemoved b) + {c} := by
  intro b
  induction b with
  | nil => simp [bucketUpd, allRemoved]
  | cons p l ih =>
    simp only [allRemoved, ← Multiset.coe_singleton] at ih
    by_cases h : p.1 = cid
    · simp only [bucketUpd, if_pos h, allRemoved, List.flatMap_cons,
        ← Multiset.coe_add, ← Multiset.coe_singleton]
      abel
    · simp only [bucketUpd, if_neg h, allRemoved, List.flatMap_cons,
        ← Multiset.coe_add, ← Multiset.coe_singleton]
      rw [ih]
      abel

theorem allRemoved_bucketUpd_add (cid : Nat) (c : Commit) :
    ∀ b : List (Nat × ModifiedChange),
      allRemoved (bucketUpd cid
          (fun mc => { mc with added_commits := mc.added_commits ++ [c] }) b) =
        allRemoved b := by
  intro b
  induction b with
  | nil => simp [bucketUpd, allRemoved]
  | cons p l ih =>
    by_cases h : p.1 = cid
    · simp [bucketUpd, if_pos h, allRemoved]
    · simp only [bucketUpd, if_neg h, allRemoved, List.flatMap_cons]
      simp only [allRemoved] at ih
      rw [ih]

theorem allAdded_foldl_add :
    ∀ (l : List Commit) (b : List (Nat × ModifiedChange)),
      (↑(allAdded (l.foldl (fun b c => bucketUpd c.changeId
          (fun mc => { mc with added_commits := mc.added_commits ++ [c] }) b) b)) :
        Multiset Commit) = ↑(allAdded b) + ↑l := by
  intro l
  induction l with
  | nil => intro b; simp
  | cons c l ih =>
    intro b
    rw [List.foldl_cons, ih, allAdded_bucketUpd_add]
    simp only [← Multiset.cons_coe, ← Multiset.singleton_add]
    abel

theorem allAdded_foldl_removed :
    ∀ (l : List Commit) (b : List (Nat × ModifiedChange)),
      allAdded (l.foldl (fun b c => bucketUpd c.changeId
          (fun mc => { mc with removed_commits := mc.removed_commits ++ [c] }) b) b) =
        allAdded b := by
  intro l
  induction l with
  | nil => intro b; rfl
  | cons c l ih =>
    intro b
    rw [List.foldl_cons, ih, allAdded_bucketUpd_removed]

theorem allRemoved_foldl_removed :
    ∀ (l : List Commit) (b : List (Nat × ModifiedChange)),
      (↑(allRemoved (l.foldl (fun b c => bucketUpd c.changeId
          (fun mc => { mc with removed_commits := mc.removed_commits ++ [c] }) b) b)) :
        Multiset Commit) = ↑(allRemoved b) + ↑l := by
  intro l
  induction l with
  | nil => intro b; simp
  | cons c l ih =>
    intro b
    rw [List.foldl_cons, ih, allRemoved_bucketUpd_removed]
    simp only [← Multiset.cons_coe, ← Multiset.singleton_add]
    abel

theorem allRemoved_foldl_add :
    ∀ (l : List Commit) (b : List (Nat × ModifiedChange)),
      allRemoved (l.foldl (fun b c => bucketUpd c.changeId
          (fun mc => { mc with added_commits := mc.added_commits ++ [c] }) b) b) =
        allRemoved b := by
  intro l
  induction l with
  | nil => intro b; rfl
  | cons c l ih =>
    intro b
    rw [List.foldl_cons, ih, allRemoved_bucketUpd_add]

/-! ## Claim C8: operation-diff symmetry -/

/-- C8: swapping the two snapshots swaps the added and removed buckets, as
multisets of commits: the added commits of `op_diff(a, b)` are the removed
commits of `op_diff(b, a)`, and vice versa. -/
theorem C8_op_diff_symmetry (g : Dag) (aHeads bHeads : List Nat) :
    (↑(allAdded (compute_operation_commits_diff g aHeads bHeads)) :
        Multiset Commit) =
      ↑(allRemoved (compute_operation_commits_diff g bHeads aHeads)) ∧
    (↑(allRemoved (compute_operation_commits_diff g aHeads bHeads)) :
        Multiset Commit) =
      ↑(allAdded (compute_operation_commits_diff g bHeads aHeads)) := by
  constructor
  · rw [compute_operation_commits_diff, compute_operation_commits_diff]
    rw [allAdded_foldl_removed, allRemoved_foldl_removed, allAdded_foldl_add,
      allRemoved_foldl_add]
    simp [allAdded, allRemoved]
  · rw [compute_operation_commits_diff, compute_operation_commits_diff]
    rw [allRemoved_foldl_removed, allAdded_foldl_removed, allRemoved_foldl_add,
      allAdded_foldl_add]
    simp [allAdded, allRemoved]

/-! ## `cmd_op_diff`: resolution of the two operations -/

/-- An operation: a recorded snapshot with its parent operations. -/
structure Operation where
  id : Nat
  parents : List Nat
  deriving Repr, DecidableEq

/-- The operation-selection arguments of `op diff` (already parsed; operation
names are modelled as naturals). -/
structure OperationDiffArgs where
  operation : Option Nat
  fromArg : Option Nat
  toArg : Option Nat
  deriving Repr, DecidableEq

inductive OpDiffError where
  | noParents
  deriving Repr, DecidableEq

/-- The operation-resolution phase of `cmd_op_diff`: picks the `from` and
`to` operations from the arguments.  `resolveOpForLoad` stands for
`op_walk::resolve_op_for_load` and `mergeOperations` for
`repo_loader.merge_operations` (both external collaborators), `headOp` for
the `--at-operation` default. -/
def cmd_op_diff_resolve (resolveOpForLoad : Nat → Operation)
    (mergeOperations : List Nat → Operation) (headOp : Nat)
    (args : OperationDiffArgs) : Except OpDiffError (Operation × Operation) :=
  if args.fromArg.isSome || args.toArg.isSome then
    Except.ok (resolveOpForLoad (args.fromArg.getD headOp),
               resolveOpForLoad (args.toArg.getD headOp))
  else
    let toOp := resolveOpForLoad (args.operation.getD headOp)
    if toOp.parents.isEmpty then Except.error OpDiffError.noParents
    else Except.ok (mergeOperations toOp.parents, toOp)

/-! ## Rebase (`cli/src/commands/rebase.rs`) -/

inductive RebaseError where
  | cannotRebaseOntoItself (c : Nat)
  | refusingToCreateLoop (c : Nat)
  | unrewritable (c : Nat)
  deriving Repr, DecidableEq

/-- The `children()` revset: commits with a parent in the given set,
enumerated in index order. -/
def childrenOf (g : Dag) (ids : List Nat) : List Commit :=
  g.filter (fun c => c.parents.any (fun p => p ∈ ids))

/-- `ensure_no_commit_loop`: fail if some commit is simultaneously a
descendant of a potential child and an ancestor of a potential parent of
the rebased commits (the revset `children_expression.dag_range_to(
parents_expression)` is non-empty). -/
def ensure_no_commit_loop (g : Dag) (children parents : List Nat) :
    Except RebaseError Unit :=
  match (g.filter (fun c =>
      children.any (fun ch => isAncestor g ch c.id) &&
      parents.any (fun p => isAncestor g c.id p))).head? with
  | some c => Except.error (RebaseError.refusingToCreateLoop c.id)
  | none => Except.ok ()

/-- `workspace_command.check_rewritable`, with store rewritability supplied
as a predicate. -/
def check_rewritable (rewritable : Nat → Bool) (ids : List Nat) :
    Except RebaseError Unit :=
  match ids.find? (fun i => !rewritable i) with
  | some i => Except.error (RebaseError.unrewritable i)
  | none => Except.ok ()

/-- `compute_destination`: turn the resolved `destination` / `insert_after` /
`insert_before` commit lists into `(new_parents, new_children)`. -/
def compute_destination (g : Dag) (rewritable : Nat → Bool)
    (target_commits destination_commits after_commits before_commits : List Commit)
    (rebase_descendants : Bool) :
    Except RebaseError (List Commit × List Commit) := do
  let pair ←
    if after_commits ≠ [] ∧ before_commits ≠ [] then
      pure (after_commits, before_commits)
    else if after_commits ≠ [] then
      pure (after_commits, childrenOf g (idsOf after_commits))
    else if before_commits ≠ [] then
      let new_parent_ids := uniqueList (before_commits.flatMap (fun c => c.parents))
      pure (childrenOf g new_parent_ids, before_commits)
    else if rebase_descendants then
      pure (destination_commits, ([] : List Commit))
    else
      match target_commits.find? (fun c => destination_commits.contains c) with
      | some c => throw (RebaseError.cannotRebaseOntoItself c.id)
      | none => pure (destination_commits, ([] : List Commit))
  let (new_parents, new_children) := pair
  if new_children ≠ [] then
    check_rewritable rewritable (idsOf new_children)
    ensure_no_commit_loop g (idsOf new_children) (idsOf new_parents)
  pure (new_parents, new_children)

/-! ### Move-commits planning -/

/-- The `connected()` revset over the target set: commits lying on a path
between two targets (both a descendant of some target and an ancestor of
some target). -/
def connectedTargets (g : Dag) (tids : List Nat) : List Commit :=
  g.filter (fun c =>
    tids.any (fun a => isAncestor g a c.id) &&
    tids.any (fun b => isAncestor g c.id b))

/-- `connected_target_commits_internal_parents`: walking the connected set
parents-first, record for each commit the parents restricted to the target
set (substituting recorded internal parents for connected non-target
parents). -/
def internalParentsMap (tids : List Nat) (connected : List Commit) :
    List (Nat × List Nat) :=
  connected.reverse.foldl (fun m c =>
    let new_parents := c.parents.foldl (fun acc p =>
      if p ∈ tids then acc ++ [p]
      else match alookup p m with
        | some qs => acc ++ qs
        | none => acc) []
    m ++ [(c.id, new_parents)]) []

/-- The roots of the target set: provided by the caller, or computed as the
connected commits with no internal parents. -/
def target_roots_resolved (target_roots : List Nat)
    (m : List (Nat × List Nat)) : List Nat :=
  if target_roots.isEmpty then (m.filter (fun p => p.2.isEmpty)).map (·.1)
  else target_roots

/-- `target_commits_external_parents`: for each target, its transitive
parents obtained by skipping over the target set. -/
def externalParentsMap (target_commits : List Commit) : List (Nat × List Nat) :=
  target_commits.reverse.foldl (fun m c =>
    let new_parents := c.parents.foldl (fun acc p =>
      match alookup p m with
      | some qs => idxExtend acc qs
      | none => idxInsert acc p) []
    m ++ [(c.id, new_parents)]) []

/-- Normalization of `new_parent_ids`: replace a target appearing among the
new parents by its external parents. -/
def normalizeNewParents (new_parent_ids : List Nat)
    (ext : List (Nat × List Nat)) : List Nat :=
  new_parent_ids.flatMap (fun p =>
    match alookup p ext with
    | some qs => qs
    | none => [p])

/-- The revset `commits(T) ∪ commits(T).children()` in index order. -/
def targetsAndTheirChildren (g : Dag) (tids : List Nat) : List Commit :=
  g.filter (fun c => c.id ∈ tids || c.parents.any (fun p => p ∈ tids))

/-- `IndexSet<Commit>` insert. -/
def idxInsertC (s : List Commit) (c : Commit) : List Commit :=
  if c ∈ s then s else s ++ [c]

/-- `IndexSet<Commit>` extend. -/
def idxExtendC (s : List Commit) (l : List Commit) : List Commit :=
  l.foldl idxInsertC s

/-- Extend the entry of `k` (update point of `get_mut`). -/
def assocExtendC (k : Nat) (cs : List Commit) :
    List (Nat × List Commit) → List (Nat × List Commit)
  | [] => []
  | p :: l => if p.1 = k then (p.1, idxExtendC p.2 cs) :: l
              else p :: assocExtendC k cs l

/-- One step of the `target_commit_external_descendants` accumulation: add
the commit's own entry if missing (empty for targets, itself otherwise),
then merge its recorded external descendants into each target parent. -/
def extDescStep (tids : List Nat) (m : List (Nat × List Commit)) (c : Commit) :
    List (Nat × List Commit) :=
  let m1 := if (alookup c.id m).isSome then m
            else m ++ [(c.id, if c.id ∈ tids then [] else [c])]
  let children := (alookup c.id m1).getD []
  c.parents.foldl (fun acc p =>
    if p ∈ tids then
      if (alookup p acc).isSome then assocExtendC p children acc
      else acc ++ [(p, children)]
    else acc) m1

/-- Normalization of `new_children`: replace a target appearing among the
new children by its external descendants (up to one generation outside the
target set). -/
def normalizeNewChildren (g : Dag) (tids : List Nat)
    (new_children : List Commit) : List Commit :=
  if new_children.any (fun ch => ch.id ∈ tids) then
    let m := (targetsAndTheirChildren g tids).foldl (extDescStep tids) []
    new_children.flatMap (fun ch =>
      match alookup ch.id m with
      | some cs => cs
      | none => [ch])
  else new_children

/-- The head-set accumulation for `target_heads`: walking parents-first,
insert each connected commit and delete its parents. -/
def targetHeadsFold (connected : List Commit) : List Nat :=
  connected.reverse.foldl (fun s c =>
    (idxInsert s c.id).filter (fun x => x ∉ c.parents)) []

/-- `target_heads`: connected commits surviving the head-set accumulation
that belong to the target set, in parents-first order. -/
def targetHeadsList (tids : List Nat) (connected : List Commit) : List Nat :=
  let hs := targetHeadsFold connected
  (connected.reverse.filter (fun c => c.id ∈ hs && c.id ∈ tids)).map (·.id)

/-- `new_children_parents`: for each new child, its current parents with
targets replaced by their external parents, minus the new parents of the
target set, plus the target heads. -/
def new_children_parents (tids : List Nat) (connected : List Commit)
    (ext : List (Nat × List Nat)) (new_parent_ids : List Nat)
    (new_children : List Commit) : List (Nat × List Nat) :=
  if ¬ new_children.isEmpty then
    let target_heads := targetHeadsList tids connected
    new_children.map (fun child_commit =>
      let replaced := (child_commit.parents.flatMap (fun pid =>
          match alookup pid ext with
          | some ps => ps
          | none => [pid])).filter (fun pid => ¬ new_parent_ids.contains pid)
      (child_commit.id, idxExtend (idxFromList replaced) target_heads))
  else []

/-- The `descendants()` revset in index order. -/
def descendantsOf (g : Dag) (roots : List Nat) : List Commit :=
  g.filter (fun c => roots.any (fun r => isAncestor g r c.id))

/-- Choice of the planned new parent list for one visited commit
(the rule chain of `to_visit_commits_new_parents`). -/
def plannedParents (g : Dag) (tids rootsRes : List Nat)
    (internalM ext ncp : List (Nat × List Nat)) (npNorm : List Nat)
    (ncNorm : List Commit) (c : Commit) : List Nat :=
  match alookup c.id ncp with
  | some ps => ps
  | none =>
    if c.id ∈ tids then
      if c.id ∈ rootsRes then npNorm
      else
        c.parents.foldl (fun acc p =>
          if p ∈ tids then acc ++ [p]
          else match alookup p internalM with
            | some qs => acc ++ qs
            | none =>
              if ¬ ncNorm.any (fun nc => isAncestor g nc.id p) then acc ++ [p]
              else acc) []
    else if c.parents.any (fun p => (alookup p ext).isSome) then
      c.parents.foldl (fun acc p =>
        match alookup p ext with
        | some qs => acc ++ qs
        | none => acc ++ [p]) []
    else c.parents

/-- All planning products of `move_commits` before any rewrite happens. -/
structure MovePlan where
  target_commit_ids : List Nat
  new_parent_ids : List Nat
  new_children : List Commit
  target_roots : List Nat
  to_visit : List Commit
  to_visit_new_parents : List (Nat × List Nat)
  deriving Repr, DecidableEq

def move_commits_plan (g : Dag) (new_parent_ids : List Nat)
    (new_children : List Commit) (target_commits : List Commit)
    (target_roots : List Nat) : MovePlan :=
  let tids := idsOf target_commits
  let connected := connectedTargets g tids
  let internalM := internalParentsMap tids connected
  let rootsRes := target_roots_resolved target_roots internalM
  let ext := externalParentsMap target_commits
  let npNorm := normalizeNewParents new_parent_ids ext
  let ncNorm := normalizeNewChildren g tids new_children
  let ncp := new_children_parents tids connected ext npNorm ncNorm
  let visit := descendantsOf g (rootsRes ++ idsOf ncNorm)
  let planned := visit.map (fun c =>
    (c.id, plannedParents g tids rootsRes internalM ext ncp npNorm ncNorm c))
  ⟨tids, npNorm, ncNorm, rootsRes, visit, planned⟩

/-! ### Rewrite executor -/

/-- `RebasedCommit` outcome of `rebase_commit_with_options`. -/
inductive RebasedCommit where
  | rewritten (newId : Nat)
  | abandoned
  deriving Repr, DecidableEq

inductive EmptyBehaviour where
  | keep
  | abandonNewlyEmpty
  deriving Repr, DecidableEq

structure RebaseOptions where
  empty : EmptyBehaviour
  simplify_ancestor_merge : Bool
  deriving Repr, DecidableEq

/-- The `RebaseOptions` chosen by `cmd_rebase` from `--skip-empty`. -/
def cmd_rebase_options (skip_empty : Bool) : RebaseOptions :=
  { empty := if skip_empty then EmptyBehaviour.abandonNewlyEmpty
             else EmptyBehaviour.keep,
    simplify_ancestor_merge := false }

/-- Modelled from the spec: `rebase_commit_with_options` lives in `jj_lib`
(outside the examined sources).  Per §4.3 of the specification it abandons a
commit only under `AbandonNewlyEmpty`, when the rebase newly emptied the
commit and the commit is not a merge with more than one non-empty parent;
otherwise it writes a rewritten commit with a backend-assigned fresh id.
Tree emptiness and the fresh-id supply are abstracted as parameters. -/
def rebase_commit_with_options (options : RebaseOptions) (freshId : Nat → Nat)
    (newlyEmptied : Commit → List Nat → Bool)
    (multiNonEmptyParentMerge : Commit → List Nat → Bool)
    (c : Commit) (ps : List Nat) : RebasedCommit :=
  match options.empty with
  | EmptyBehaviour.keep => RebasedCommit.rewritten (freshId c.id)
  | EmptyBehaviour.abandonNewlyEmpty =>
    if newlyEmptied c ps && !(multiNonEmptyParentMerge c ps) then
      RebasedCommit.abandoned
    else RebasedCommit.rewritten (freshId c.id)

/-- The executor state: the rewritten-references table, the record of the
rewrites performed, and the four `MoveCommitsStats` counters. -/
structure ExecState where
  parent_mapping : List (Nat × List Nat)
  applied : List (Nat × Option (Nat × List Nat))
  num_rebased_targets : Nat
  num_rebased_descendants : Nat
  num_skipped_rebases : Nat
  num_abandoned : Nat
  deriving Repr, DecidableEq

def initExecState : ExecState := ⟨[], [], 0, 0, 0, 0⟩

/-- Modelled from the spec: `mut_repo.new_parents(ids)` (jj_lib) resolves
ids through the rewrite table, replacing rewritten ids and resolving an
abandoned id to its recorded parents. -/
def new_parents (table : List (Nat × List Nat)) (ids : List Nat) : List Nat :=
  ids.flatMap (fun i => (alookup i table).getD [i])

/-- One iteration of the executor loop: resolve the planned parents through
the table, skip when nothing changed, otherwise rebase and classify. -/
def executeRebaseStep (rebaseFn : Commit → List Nat → RebasedCommit)
    (tids : List Nat) (s : ExecState) (c : Commit) (planned : List Nat) :
    ExecState :=
  let resolved := new_parents s.parent_mapping planned
  if resolved = c.parents then
    { s with num_skipped_rebases := s.num_skipped_rebases + 1 }
  else
    match rebaseFn c resolved with
    | RebasedCommit.abandoned =>
      { s with parent_mapping := s.parent_mapping ++ [(c.id, resolved)],
               applied := s.applied ++ [(c.id, none)],
               num_abandoned := s.num_abandoned + 1 }
    | RebasedCommit.rewritten nid =>
      if c.id ∈ tids then
        { s with parent_mapping := s.parent_mapping ++ [(c.id, [nid])],
                 applied := s.applied ++ [(c.id, some (nid, resolved))],
                 num_rebased_targets := s.num_rebased_targets + 1 }
      else
        { s with parent_mapping := s.parent_mapping ++ [(c.id, [nid])],
                 applied := s.applied ++ [(c.id, some (nid, resolved))],
                 num_rebased_descendants := s.num_rebased_descendants + 1 }

/-- Modelled from the spec: `dag_walk::topo_order_reverse` (jj_lib) followed
by the pop loop — emit repeatedly a pending commit none of whose planned
parents is still pending, so that parents are executed before children;
parents outside the visit set are treated as fixed. -/
def topoExecOrder (planned : List (Nat × List Nat)) :
    Nat → List Commit → List Commit
  | 0, pending => pending
  | fuel + 1, pending =>
    match pending.find? (fun c =>
        !(((alookup c.id planned).getD []).any (fun p =>
          decide (p ≠ c.id) && pending.any (fun d => d.id = p)))) with
    | some c => c :: topoExecOrder planned fuel (pending.erase c)
    | none => pending

/-- `move_commits`: plan, order, and execute; returns the executor state
(rewrite records and the `MoveCommitsStats` counters). -/
def move_commits (rebaseFn : Commit → List Nat → RebasedCommit) (g : Dag)
    (new_parent_ids : List Nat) (new_children : List Commit)
    (target_commits : List Commit) (target_roots : List Nat) : ExecState :=
  if target_commits.isEmpty then initExecState
  else
    let plan := move_commits_plan g new_parent_ids new_children target_commits target_roots
    let order := topoExecOrder plan.to_visit_new_parents plan.to_visit.length plan.to_visit
    order.foldl (fun s c =>
      executeRebaseStep rebaseFn plan.target_commit_ids s c
        ((alookup c.id plan.to_visit_new_parents).getD c.parents)) initExecState

/-- The parent list a commit id carries after the move: its rewrite's
parents if it was rewritten, nothing if abandoned, and its unchanged index
record otherwise. -/
def postMoveParents (g : Dag) (s : ExecState) (oldId : Nat) : Option (List Nat) :=
  match alookup oldId s.applied with
  | some (some (_, ps)) => some ps
  | some none => none
  | none => (g.find? (fun c => c.id = oldId)).map (·.parents)

/-! ## Claim C2: helper lemmas -/

theorem mem_idxInsertC (x : Commit) (c : Commit) (s : List Commit) :
    x ∈ idxInsertC s c → x ∈ s ∨ x = c := by
  unfold idxInsertC
  by_cases h : c ∈ s
  · rw [if_pos h]
    exact Or.inl
  · rw [if_neg h]
    intro hx
    rcases List.mem_append.mp hx with hx | hx
    · exact Or.inl hx
    · exact Or.inr (List.mem_singleton.mp hx)

theorem mem_idxExtendC (x : Commit) :
    ∀ (l s : List Commit), x ∈ idxExtendC s l → x ∈ s ∨ x ∈ l := by
  intro l
  induction l with
  | nil => intro s hx; exact Or.inl hx
  | cons c l ih =>
    intro s hx
    rcases ih (idxInsertC s c) hx with hx | hx
    · rcases mem_idxInsertC x c s hx with hx | rfl
      · exact Or.inl hx
      · exact Or.inr (List.mem_cons_self _ _)
    · exact Or.inr (List.mem_cons_of_mem _ hx)

theorem alookup_append_single {β : Type} (x k : Nat) (v : β) {w : β} :
    ∀ m : List (Nat × β), alookup x (m ++ [(k, v)]) = some w →
      alookup x m = some w ∨ (k = x ∧ w = v) := by
  intro m
  induction m with
  | nil =>
    intro h
    simp only [List.nil_append, alookup] at h
    by_cases hk : k = x
    · rw [if_pos hk] at h
      cases h
      exact Or.inr ⟨hk, rfl⟩
    · rw [if_neg hk] at h
      cases h
  | cons p m ih =>
    intro h
    rw [List.cons_append] at h
    simp only [alookup] at h ⊢
    by_cases hp : p.1 = x
    · rw [if_pos hp] at h ⊢
      exact Or.inl h
    · rw [if_neg hp] at h ⊢
      exact ih h

theorem alookup_append_single_ne {β : Type} (x k : Nat) (v : β) (hk : k ≠ x) :
    ∀ m : List (Nat × β), alookup x (m ++ [(k, v)]) = alookup x m := by
  intro m
  induction m with
  | nil => simp [alookup, if_neg hk]
  | cons p m ih =>
    rw [List.cons_append]
    simp only [alookup]
    by_cases hp : p.1 = x
    · rw [if_pos hp, if_pos hp]
    · rw [if_neg hp, if_neg hp]
      exact ih

/-- The per-value invariant of `target_commit_external_descendants`:
every commit stored in a value is an indexed non-target commit with a
target parent. -/
def ExtDescInv (g : Dag) (tids : List Nat) (m : List (Nat × List Commit)) : Prop :=
  ∀ k v, alookup k m = some v → ∀ x ∈ v,
    x ∈ g ∧ x.id ∉ tids ∧ ∃ p ∈ x.parents, p ∈ tids

theorem ExtDescInv_append (g : Dag) (tids : List Nat)
    (m : List (Nat × List Commit)) (k : Nat) (v : List Commit)
    (hm : ExtDescInv g tids m)
    (hv : ∀ x ∈ v, x ∈ g ∧ x.id ∉ tids ∧ ∃ p ∈ x.parents, p ∈ tids) :
    ExtDescInv g tids (m ++ [(k, v)]) := by
  intro k2 v2 hk2 x hx
  rcases alookup_append_single k2 k v m hk2 with h | ⟨_, rfl⟩
  · exact hm k2 v2 h x hx
  · exact hv x hx

theorem alookup_assocExtendC (k x : Nat) (cs : List Commit) :
    ∀ m : List (Nat × List Commit),
      alookup x (assocExtendC k cs m) =
        if x = k then
          (match alookup x m with
          | some w => some (idxExtendC w cs)
          | none => none)
        else alookup x m := by
  intro m
  induction m with
  | nil =>
    by_cases hx : x = k
    · simp [assocExtendC, alookup, hx]
    · simp [assocExtendC, alookup, hx]
  | cons p m ih =>
    unfold assocExtendC
    by_cases hp : p.1 = k
    · rw [if_pos hp]
      by_cases hpx : p.1 = x
      · have hx : x = k := by rw [← hpx, hp]
        simp only [alookup, if_pos hpx, if_pos hx]
      · have hx : ¬ (x = k) := fun h => hpx (by rw [hp, h])
        simp only [alookup, if_neg hpx, if_neg hx]
    · rw [if_neg hp]
      by_cases hpx : p.1 = x
      · have hx : ¬ (x = k) := fun h => hp (by rw [hpx, h])
        simp only [alookup, if_pos hpx, if_neg hx]
      · simp only [alookup, if_neg hpx]
        exact ih

theorem ExtDescInv_assocExtendC (g : Dag) (tids : List Nat) (k : Nat)
    (cs : List Commit)
    (hcs : ∀ x ∈ cs, x ∈ g ∧ x.id ∉ tids ∧ ∃ p ∈ x.parents, p ∈ tids)
    (m : List (Nat × List Commit)) (hm : ExtDescInv g tids m) :
    ExtDescInv g tids (assocExtendC k cs m) := by
  intro k2 v2 hk2 x hx
  rw [alookup_assocExtendC] at hk2
  by_cases hkk : k2 = k
  · rw [if_pos hkk] at hk2
    cases hw : alookup k2 m with
    | none => rw [hw] at hk2; cases hk2
    | some w =>
      rw [hw] at hk2
      cases hk2
      rcases mem_idxExtendC x cs w hx with hx | hx
      · exact hm k2 w hw x hx
      · exact hcs x hx
  · rw [if_neg hkk] at hk2
    exact hm k2 v2 hk2 x hx

theorem ExtDescInv_parentFold (g : Dag) (tids : List Nat) (cs : List Commit)
    (hcs : ∀ x ∈ cs, x ∈ g ∧ x.id ∉ tids ∧ ∃ p ∈ x.parents, p ∈ tids) :
    ∀ (ps : List Nat) (acc : List (Nat × List Commit)), ExtDescInv g tids acc →
      ExtDescInv g tids (ps.foldl (fun acc p =>
        if p ∈ tids then
          if (alookup p acc).isSome then assocExtendC p cs acc
          else acc ++ [(p, cs)]
        else acc) acc) := by
  intro ps
  induction ps with
  | nil => intro acc h; exact h
  | cons p ps ih =>
    intro acc h
    rw [List.foldl_cons]
    apply ih
    by_cases hp : p ∈ tids
    · rw [if_pos hp]
      by_cases hl : (alookup p acc).isSome
      · rw [if_pos hl]
        exact ExtDescInv_assocExtendC g tids p cs hcs acc h
      · rw [if_neg hl]
        exact ExtDescInv_append g tids acc p cs h hcs
    · rw [if_neg hp]
      exact h

theorem ExtDescInv_extDescStep (g : Dag) (tids : List Nat) (d : Commit)
    (hd : d ∈ g ∧ (d.id ∈ tids ∨ ∃ p ∈ d.parents, p ∈ tids))
    (m : List (Nat × List Commit)) (hm : ExtDescInv g tids m) :
    ExtDescInv g tids (extDescStep tids m d) := by
  have hm1 : ExtDescInv g tids (if (alookup d.id m).isSome then m
      else m ++ [(d.id, if d.id ∈ tids then [] else [d])]) := by
    by_cases hl : (alookup d.id m).isSome
    · rw [if_pos hl]
      exact hm
    · rw [if_neg hl]
      refine ExtDescInv_append g tids m d.id _ hm ?_
      by_cases ht : d.id ∈ tids
      · rw [if_pos ht]
        intro x hx
        cases hx
      · rw [if_neg ht]
        intro x hx
        rw [List.mem_singleton] at hx
        subst hx
        exact ⟨hd.1, ht, hd.2.resolve_left ht⟩
  simp only [extDescStep]
  refine ExtDescInv_parentFold g tids _ ?_ d.parents _ hm1
  cases hl : alookup d.id (if (alookup d.id m).isSome then m
      else m ++ [(d.id, if d.id ∈ tids then [] else [d])]) with
  | none =>
    intro x hx
    simp at hx
  | some v =>
    intro x hx
    exact hm1 d.id v hl x (by simpa using hx)

theorem ExtDescInv_fold (g : Dag) (tids : List Nat) :
    ∀ (D : List Commit),
      (∀ d ∈ D, d ∈ g ∧ (d.id ∈ tids ∨ ∃ p ∈ d.parents, p ∈ tids)) →
      ∀ m, ExtDescInv g tids m → ExtDescInv g tids (D.foldl (extDescStep tids) m) := by
  intro D
  induction D with
  | nil => intro _ m h; exact h
  | cons d D ih =>
    intro hD m h
    rw [List.foldl_cons]
    exact ih (fun e he => hD e (List.mem_cons_of_mem _ he)) _
      (ExtDescInv_extDescStep g tids d (hD d (List.mem_cons_self _ _)) m h)

/-- Each normalized new child is either one of the given new children or an
indexed non-target commit with a target parent. -/
theorem normalizeNewChildren_mem (g : Dag) (tids : List Nat)
    (new_children : List Commit) :
    ∀ x ∈ normalizeNewChildren g tids new_children,
      x ∈ new_children ∨ (x ∈ g ∧ x.id ∉ tids ∧ ∃ p ∈ x.parents, p ∈ tids) := by
  unfold normalizeNewChildren
  by_cases hb : new_children.any (fun ch => decide (ch.id ∈ tids))
  · rw [if_pos hb]
    intro x hx
    obtain ⟨ch, hch, hx⟩ := List.mem_flatMap.mp hx
    have hinv : ExtDescInv g tids
        ((targetsAndTheirChildren g tids).foldl (extDescStep tids) []) := by
      refine ExtDescInv_fold g tids _ ?_ [] (fun k v hk => by cases hk)
      intro d hd
      have := List.mem_filter.mp hd
      refine ⟨this.1, ?_⟩
      have h2 := this.2
      rw [Bool.or_eq_true, decide_eq_true_eq, List.any_eq_true] at h2
      rcases h2 with h2 | ⟨p, hp, hpt⟩
      · exact Or.inl h2
      · exact Or.inr ⟨p, hp, by simpa using hpt⟩
    cases hl : alookup ch.id
        ((targetsAndTheirChildren g tids).foldl (extDescStep tids) []) with
    | some cs =>
      rw [hl] at hx
      exact Or.inr (hinv ch.id cs hl x hx)
    | none =>
      rw [hl] at hx
      rw [List.mem_singleton] at hx
      subst hx
      exact Or.inl hch
  · rw [if_neg hb]
    intro x hx
    exact Or.inl hx

theorem foldl_append_keys {β : Type} (body : List (Nat × β) → Commit → β) :
    ∀ (L : List Commit) (m0 : List (Nat × β)),
      (L.foldl (fun m c => m ++ [(c.id, body m c)]) m0).map (·.1) =
        m0.map (·.1) ++ idsOf L := by
  intro L
  induction L with
  | nil => intro m0; simp [idsOf]
  | cons c L ih =>
    intro m0
    rw [List.foldl_cons, ih]
    simp [idsOf]

theorem internalParentsMap_keys (tids : List Nat) (connected : List Commit) :
    (internalParentsMap tids connected).map (·.1) = idsOf connected.reverse := by
  unfold internalParentsMap
  have := foldl_append_keys
    (fun m (c : Commit) => c.parents.foldl (fun acc p =>
      if p ∈ tids then acc ++ [p]
      else match alookup p m with
        | some qs => acc ++ qs
        | none => acc) []) connected.reverse []
  simpa using this

theorem eq_of_mem_of_id_eq {g : Dag} (hno : NodupIds g) {c d : Commit}
    (hc : c ∈ g) (hd : d ∈ g) (h : d.id = c.id) : d = c := by
  have h1 := find?_id_of_mem hno hc
  have h2 := find?_id_of_mem hno hd
  rw [h] at h2
  rw [h1] at h2
  exact (Option.some_inj.mp h2).symm

theorem topoExecOrder_perm (planned : List (Nat × List Nat)) :
    ∀ (fuel : Nat) (pending : List Commit),
      (topoExecOrder planned fuel pending).Perm pending := by
  intro fuel
  induction fuel with
  | zero => intro pending; exact List.Perm.refl _
  | succ n ih =>
    intro pending
    rw [topoExecOrder]
    split
    · rename_i c hf
      have hc : c ∈ pending := List.mem_of_find?_eq_some hf
      exact ((ih (pending.erase c)).cons c).trans (List.perm_cons_erase hc).symm
    · exact List.Perm.refl _

theorem executeRebaseStep_applied_ne (f : Commit → List Nat → RebasedCommit)
    (tids : List Nat) (s : ExecState) (c : Commit) (p : List Nat) (x : Nat)
    (hx : x ≠ c.id) :
    alookup x (executeRebaseStep f tids s c p).applied = alookup x s.applied := by
  unfold executeRebaseStep
  by_cases h1 : new_parents s.parent_mapping p = c.parents
  · rw [if_pos h1]
  · rw [if_neg h1]
    cases f c (new_parents s.parent_mapping p) with
    | abandoned =>
      exact alookup_append_single_ne x c.id none (Ne.symm hx) s.applied
    | rewritten nid =>
      dsimp only
      by_cases hmem : c.id ∈ tids
      · rw [if_pos hmem]
        exact alookup_append_single_ne x c.id _ (Ne.symm hx) s.applied
      · rw [if_neg hmem]
        exact alookup_append_single_ne x c.id _ (Ne.symm hx) s.applied

theorem foldl_exec_applied_ne (f : Commit → List Nat → RebasedCommit)
    (tids : List Nat) (pl : Commit → List Nat) :
    ∀ (l : List Commit) (s : ExecState) (x : Nat), x ∉ idsOf l →
      alookup x ((l.foldl (fun s c => executeRebaseStep f tids s c (pl c)) s).applied) =
        alookup x s.applied := by
  intro l
  induction l with
  | nil => intro s x _; rfl
  | cons c l ih =>
    intro s x hx
    have hx1 : x ≠ c.id := by
      intro h
      exact hx (by rw [h]; exact List.mem_map.mpr ⟨c, List.mem_cons_self _ _, rfl⟩)
    have hx2 : x ∉ idsOf l := by
      intro h
      obtain ⟨d, hd, hid⟩ := List.mem_map.mp h
      exact hx (List.mem_map.mpr ⟨d, List.mem_cons_of_mem _ hd, hid⟩)
    rw [List.foldl_cons, ih _ x hx2,
      executeRebaseStep_applied_ne f tids s c (pl c) x hx1]

/-! ## Claim C7: parents of the new children -/

theorem mem_idxInsert (x y : Nat) (s : List Nat) :
    x ∈ idxInsert s y ↔ x = y ∨ x ∈ s := by
  unfold idxInsert
  by_cases h : y ∈ s
  · rw [if_pos h]
    constructor
    · exact Or.inr
    · rintro (rfl | hx)
      · exact h
      · exact hx
  · rw [if_neg h]
    rw [List.mem_append, List.mem_singleton]
    exact Or.comm

/-- Membership after the head-set accumulation over a parents-first list:
exactly the listed ids (or initial ids) of which no list member is a
child. -/
theorem targetHeadsFold_mem_aux (x : Nat) :
    ∀ (L : List Commit) (s0 : List Nat),
      L.Pairwise (fun a b => b.id ∉ a.parents) →
      (x ∈ L.foldl (fun s c => (idxInsert s c.id).filter (fun y => y ∉ c.parents)) s0 ↔
        (x ∈ idsOf L ∧ ∀ d ∈ L, x ∉ d.parents) ∨
        (x ∈ s0 ∧ ∀ d ∈ L, x ∉ d.parents)) := by
  intro L
  induction L with
  | nil =>
    intro s0 _
    simp [idsOf]
  | cons c L ih =>
    intro s0 hp
    obtain ⟨hhead, htail⟩ := List.pairwise_cons.mp hp
    rw [List.foldl_cons, ih _ htail]
    have hstep : ∀ z, z ∈ (idxInsert s0 c.id).filter (fun y => y ∉ c.parents) ↔
        ((z = c.id ∨ z ∈ s0) ∧ z ∉ c.parents) := by
      intro z
      rw [List.mem_filter, mem_idxInsert, decide_eq_true_eq]
    constructor
    · rintro (⟨hx1, hx2⟩ | ⟨hx1, hx2⟩)
      · have hxc : x ∉ c.parents := by
          obtain ⟨d, hd, hdx⟩ := List.mem_map.mp hx1
          rw [← hdx]
          exact hhead d hd
        exact Or.inl ⟨List.mem_cons_of_mem _ hx1, by
          intro d hd
          rcases List.mem_cons.mp hd with rfl | hd
          · exact hxc
          · exact hx2 d hd⟩
      · rcases ((hstep x).mp hx1) with ⟨rfl | hxs, hxc⟩
        · refine Or.inl ⟨List.mem_cons_self _ _, ?_⟩
          intro d hd
          rcases List.mem_cons.mp hd with rfl | hd
          · exact hxc
          · exact hx2 d hd
        · refine Or.inr ⟨hxs, ?_⟩
          intro d hd
          rcases List.mem_cons.mp hd with rfl | hd
          · exact hxc
          · exact hx2 d hd
    · rintro (⟨hx1, hx2⟩ | ⟨hx1, hx2⟩)
      · rcases List.mem_cons.mp hx1 with hxc | hx1
        · refine Or.inr ⟨(hstep x).mpr ⟨Or.inl hxc, hx2 c (List.mem_cons_self _ _)⟩, ?_⟩
          intro d hd
          exact hx2 d (List.mem_cons_of_mem _ hd)
        · exact Or.inl ⟨hx1, fun d hd => hx2 d (List.mem_cons_of_mem _ hd)⟩
      · refine Or.inr ⟨(hstep x).mpr ⟨Or.inr hx1, hx2 c (List.mem_cons_self _ _)⟩, ?_⟩
        intro d hd
        exact hx2 d (List.mem_cons_of_mem _ hd)

/-- The specification's target heads: the target commits with no child in
the connected target set, in parents-first order. -/
def targetHeadsSpec (g : Dag) (tids : List Nat) : List Nat :=
  ((connectedTargets g tids).reverse.filter (fun c =>
    decide (c.id ∈ tids) && decide (∀ d ∈ connectedTargets g tids, c.id ∉ d.parents))).map (·.id)

theorem targetHeadsList_eq_spec (g : Dag) (tids : List Nat) (hg : RevTopo g) :
    targetHeadsList tids (connectedTargets g tids) = targetHeadsSpec g tids := by
  have hpc : (connectedTargets g tids).Pairwise (fun a b => a.id ∉ b.parents) :=
    hg.filter _
  have hpr : (connectedTargets g tids).reverse.Pairwise (fun a b => b.id ∉ a.parents) :=
    List.pairwise_reverse.mpr hpc
  unfold targetHeadsList targetHeadsSpec
  dsimp only
  congr 1
  apply List.filter_congr
  intro c hc
  have hmem : c.id ∈ targetHeadsFold (connectedTargets g tids) ↔
      ∀ d ∈ connectedTargets g tids, c.id ∉ d.parents := by
    unfold targetHeadsFold
    rw [targetHeadsFold_mem_aux c.id _ [] hpr]
    constructor
    · rintro (⟨_, h2⟩ | ⟨h1, _⟩)
      · intro d hd
        exact h2 d (List.mem_reverse.mpr hd)
      · cases h1
    · intro h
      refine Or.inl ⟨List.mem_map.mpr ⟨c, hc, rfl⟩, ?_⟩
      intro d hd
      exact h d (List.mem_reverse.mp hd)
  rw [decide_eq_decide.mpr hmem, Bool.and_comm]

theorem idxExtend_idxFromList (b l : List Nat) :
    idxExtend (idxFromList b) l = dedupFirst (b ++ l) := by
  rw [← idxFromList_eq_dedupFirst]
  unfold idxFromList idxExtend
  rw [List.foldl_append]

/-- The specification's parent list for one new child: current parents with
target parents replaced by their external parents, entries equal to a
normalized new parent removed, the target heads appended, duplicates
removed. -/
def new_child_parents_spec (g : Dag) (tids : List Nat)
    (ext : List (Nat × List Nat)) (new_parent_ids : List Nat)
    (child : Commit) : List Nat :=
  dedupFirst (((child.parents.flatMap (fun pid =>
      match alookup pid ext with
      | some ps => ps
      | none => [pid])).filter (fun pid => ¬ new_parent_ids.contains pid)) ++
    targetHeadsSpec g tids)

/-- C7: for every new child, the planner's computed parent list is the
child's current parents with each target parent replaced by that target's
external parents, entries equal to any normalized new parent removed, and
all target heads (targets with no child in the connected target set)
appended, de-duplicated. -/
theorem C7_new_children_parents_spec (g : Dag) (hg : RevTopo g)
    (target_commits : List Commit) (new_parent_ids : List Nat)
    (ncs : List Commit) :
    new_children_parents (idsOf target_commits)
        (connectedTargets g (idsOf target_commits))
        (externalParentsMap target_commits)
        (normalizeNewParents new_parent_ids (externalParentsMap target_commits))
        ncs =
      ncs.map (fun child => (child.id,
        new_child_parents_spec g (idsOf target_commits)
          (externalParentsMap target_commits)
          (normalizeNewParents new_parent_ids (externalParentsMap target_commits))
          child)) := by
  unfold new_children_parents
  cases ncs with
  | nil => rfl
  | cons c rest =>
    rw [if_pos (by simp)]
    apply List.map_congr_left
    intro child _
    dsimp only
    rw [idxExtend_idxFromList, targetHeadsList_eq_spec g _ hg]
    rfl

/-- C7 witness: a concrete evaluation — the sole new child's computed
parents drop the (normalized) new parent and gain the target head. -/
theorem C7_new_children_parents_spec_witness :
    new_children_parents (idsOf [(⟨2, [], 20⟩ : Commit)])
        (connectedTargets [⟨1, [0], 10⟩, ⟨2, [], 20⟩, ⟨0, [], 0⟩]
          (idsOf [(⟨2, [], 20⟩ : Commit)]))
        (externalParentsMap [⟨2, [], 20⟩])
        (normalizeNewParents [0] (externalParentsMap [⟨2, [], 20⟩]))
        [⟨1, [0], 10⟩] = [(1, [2])] := by
  rw [C7_new_children_parents_spec [⟨1, [0], 10⟩, ⟨2, [], 20⟩, ⟨0, [], 0⟩]
    (by decide) [⟨2, [], 20⟩] [0] [⟨1, [0], 10⟩]]
  unfold new_child_parents_spec
  simp only [show ∀ l, dedupFirst l = uniqueList l from
    fun l => (uniqueList_eq_dedupFirst l).symm]
  decide

/-! ## Claim C2: ancestry preservation outside targets and new children -/

theorem move_commits_plan_to_visit (g : Dag) (np : List Nat) (nc tc : List Commit)
    (troots : List Nat) :
    (move_commits_plan g np nc tc troots).to_visit =
      descendantsOf g
        (target_roots_resolved troots
          (internalParentsMap (idsOf tc) (connectedTargets g (idsOf tc))) ++
         idsOf (normalizeNewChildren g (idsOf tc) nc)) := rfl

theorem postMoveParents_of_not_applied (g : Dag) (s : ExecState) (x : Nat)
    (h : alookup x s.applied = none) :
    postMoveParents g s x = (g.find? (fun k => k.id = x)).map (·.parents) := by
  unfold postMoveParents
  rw [h]

/-- C2 counterexample: with a non-empty `new_children`, the new child `1` —
not in the target set `{2}` and not a descendant of the target in the
original DAG — is nevertheless re-parented (onto the rewritten target), so
its post-move parent list is not its pre-move list `[0]`. -/
theorem C2_new_child_is_reparented :
    (1 : Nat) ∉ idsOf [(⟨2, [], 20⟩ : Commit)] ∧
    isAncestor [⟨1, [0], 10⟩, ⟨2, [], 20⟩, ⟨0, [], 0⟩] 2 1 = false ∧
    parentsOf [⟨1, [0], 10⟩, ⟨2, [], 20⟩, ⟨0, [], 0⟩] 1 = [0] ∧
    postMoveParents [⟨1, [0], 10⟩, ⟨2, [], 20⟩, ⟨0, [], 0⟩]
      (move_commits (fun c _ => RebasedCommit.rewritten (c.id + 100))
        [⟨1, [0], 10⟩, ⟨2, [], 20⟩, ⟨0, [], 0⟩] [0] [⟨1, [0], 10⟩]
        [⟨2, [], 20⟩] []) 1 = some [102] ∧
    postMoveParents [⟨1, [0], 10⟩, ⟨2, [], 20⟩, ⟨0, [], 0⟩]
      (move_commits (fun c _ => RebasedCommit.rewritten (c.id + 100))
        [⟨1, [0], 10⟩, ⟨2, [], 20⟩, ⟨0, [], 0⟩] [0] [⟨1, [0], 10⟩]
        [⟨2, [], 20⟩] []) 1 ≠ some [0] := by
  refine ⟨by decide, by decide, by decide, by decide, by decide⟩

set_option linter.unusedVariables false in
/-- C2 as amended: for every commit `c` outside the target set that, in the
original DAG, descends neither from any target nor from any new child, a
move leaves `c`'s parent list exactly equal to its pre-move parent list
(for well-formed indexes and caller-supplied target roots drawn from the
target set, as all call sites do). -/
theorem C2_outside_commits_keep_parents (g : Dag)
    (rebaseFn : Commit → List Nat → RebasedCommit)
    (new_parent_ids : List Nat) (new_children target_commits : List Commit)
    (target_roots : List Nat) (c : Commit)
    (hno : NodupIds g) (hc : c ∈ g)
    (hroots : ∀ r ∈ target_roots, r ∈ idsOf target_commits)
    (hT : c.id ∉ idsOf target_commits)
    (hdesc : ∀ t ∈ idsOf target_commits, isAncestor g t c.id = false)
    (hch : ∀ ch ∈ new_children, isAncestor g ch.id c.id = false) :
    postMoveParents g
      (move_commits rebaseFn g new_parent_ids new_children target_commits
        target_roots) c.id = some c.parents := by
  have hfind : (g.find? (fun k => k.id = c.id)).map (·.parents) = some c.parents := by
    rw [find?_id_of_mem hno hc]
    rfl
  have hA : ∀ r ∈ target_roots_resolved target_roots
      (internalParentsMap (idsOf target_commits)
        (connectedTargets g (idsOf target_commits))),
      isAncestor g r c.id = false := by
    intro r hr
    unfold target_roots_resolved at hr
    by_cases hemp : target_roots.isEmpty = true
    · rw [if_pos hemp] at hr
      obtain ⟨p, hp, hpr⟩ := List.mem_map.mp hr
      have hpm := List.mem_of_mem_filter hp
      have hkey : r ∈ (internalParentsMap (idsOf target_commits)
          (connectedTargets g (idsOf target_commits))).map (·.1) :=
        List.mem_map.mpr ⟨p, hpm, hpr⟩
      rw [internalParentsMap_keys] at hkey
      obtain ⟨d, hd, hdr⟩ := List.mem_map.mp hkey
      rw [List.mem_reverse] at hd
      have hdf := List.mem_filter.mp hd
      have hpred := hdf.2
      rw [Bool.and_eq_true, List.any_eq_true] at hpred
      obtain ⟨t, ht, hta⟩ := hpred.1
      cases hb : isAncestor g r c.id with
      | false => rfl
      | true =>
        rw [hdr] at hta
        have htc := isAncestor_trans g hta hb
        have hfalse := hdesc t ht
        rw [htc] at hfalse
        cases hfalse
    · rw [if_neg hemp] at hr
      exact hdesc r (hroots r hr)
  have hB : ∀ x ∈ normalizeNewChildren g (idsOf target_commits) new_children,
      isAncestor g x.id c.id = false := by
    intro x hx
    rcases normalizeNewChildren_mem g (idsOf target_commits) new_children x hx with
      hx2 | ⟨hxg, _, p, hp, hpt⟩
    · exact hch x hx2
    · cases hb : isAncestor g x.id c.id with
      | false => rfl
      | true =>
        have hpx : isAncestor g p x.id = true := by
          apply isAncestor_of_parent
          rw [parentsOf_eq_of_mem hno hxg]
          exact hp
        have hpc := isAncestor_trans g hpx hb
        have hfalse := hdesc p hpt
        rw [hpc] at hfalse
        cases hfalse
  have hVR : ∀ r ∈ target_roots_resolved target_roots
      (internalParentsMap (idsOf target_commits)
        (connectedTargets g (idsOf target_commits))) ++
      idsOf (normalizeNewChildren g (idsOf target_commits) new_children),
      isAncestor g r c.id = false := by
    intro r hr
    rcases List.mem_append.mp hr with hr | hr
    · exact hA r hr
    · obtain ⟨x, hx, hxr⟩ := List.mem_map.mp hr
      rw [← hxr]
      exact hB x hx
  have hvisit : c.id ∉ idsOf
      (move_commits_plan g new_parent_ids new_children target_commits
        target_roots).to_visit := by
    rw [move_commits_plan_to_visit]
    intro hmem
    obtain ⟨d, hd, hid⟩ := List.mem_map.mp hmem
    have hdf := List.mem_filter.mp hd
    have hdc := eq_of_mem_of_id_eq hno hc hdf.1 hid
    have hpred := hdf.2
    rw [hdc] at hpred
    rw [List.any_eq_true] at hpred
    obtain ⟨r, hr, hra⟩ := hpred
    have hfalse := hVR r hr
    rw [hra] at hfalse
    cases hfalse
  have horder : c.id ∉ idsOf (topoExecOrder
      (move_commits_plan g new_parent_ids new_children target_commits
        target_roots).to_visit_new_parents
      (move_commits_plan g new_parent_ids new_children target_commits
        target_roots).to_visit.length
      (move_commits_plan g new_parent_ids new_children target_commits
        target_roots).to_visit) := by
    intro hmem
    apply hvisit
    obtain ⟨d, hd, hid⟩ := List.mem_map.mp hmem
    exact List.mem_map.mpr ⟨d, (topoExecOrder_perm _ _ _).mem_iff.mp hd, hid⟩
  have happ : alookup c.id ((topoExecOrder
      (move_commits_plan g new_parent_ids new_children target_commits
        target_roots).to_visit_new_parents
      (move_commits_plan g new_parent_ids new_children target_commits
        target_roots).to_visit.length
      (move_commits_plan g new_parent_ids new_children target_commits
        target_roots).to_visit).foldl
      (fun s c => executeRebaseStep rebaseFn
        (move_commits_plan g new_parent_ids new_children target_commits
          target_roots).target_commit_ids s c
        ((alookup c.id (move_commits_plan g new_parent_ids new_children
          target_commits target_roots).to_visit_new_parents).getD c.parents))
      initExecState).applied = none := by
    have h1 := foldl_exec_applied_ne rebaseFn
      (move_commits_plan g new_parent_ids new_children target_commits
        target_roots).target_commit_ids
      (fun c2 => (alookup c2.id (move_commits_plan g new_parent_ids new_children
        target_commits target_roots).to_visit_new_parents).getD c2.parents)
      (topoExecOrder
        (move_commits_plan g new_parent_ids new_children target_commits
          target_roots).to_visit_new_parents
        (move_commits_plan g new_parent_ids new_children target_commits
          target_roots).to_visit.length
        (move_commits_plan g new_parent_ids new_children target_commits
          target_roots).to_visit)
      initExecState c.id horder
    exact h1.trans rfl
  by_cases he : target_commits.isEmpty = true
  · unfold move_commits
    rw [if_pos he]
    exact hfind
  · unfold move_commits
    rw [if_neg he]
    rw [postMoveParents_of_not_applied g _ c.id happ]
    exact hfind

/-- C2 witness: a target with no descendants is rebased while the unrelated
commit `1` keeps its parent list `[0]`. -/
theorem C2_outside_commits_keep_parents_witness :
    postMoveParents [⟨1, [0], 10⟩, ⟨2, [], 20⟩, ⟨0, [], 0⟩]
      (move_commits (fun c _ => RebasedCommit.rewritten (c.id + 100))
        [⟨1, [0], 10⟩, ⟨2, [], 20⟩, ⟨0, [], 0⟩] [0] [] [⟨2, [], 20⟩] []) 1 =
      some [0] :=
  C2_outside_commits_keep_parents [⟨1, [0], 10⟩, ⟨2, [], 20⟩, ⟨0, [], 0⟩]
    (fun c _ => RebasedCommit.rewritten (c.id + 100)) [0] [] [⟨2, [], 20⟩] []
    ⟨1, [0], 10⟩ (by decide) (by decide) (by decide) (by decide) (by decide)
    (by decide)

/-! ## Claim C3: content-diff selection for a `ModifiedChange` -/

/-- C3 counterexample: a change with exactly 1 added and 2 removed commits is
an "other cardinality combination" per the claim, which therefore demands no
content diff; the code instead renders the added commit's patch. -/
theorem C3_one_added_two_removed_shows_patch :
    show_change_diff ⟨[⟨1, [], 7⟩], [⟨2, [], 7⟩, ⟨3, [], 7⟩]⟩ =
      ChangeDiff.patchAdded ⟨1, [], 7⟩ ∧
    show_change_diff ⟨[⟨1, [], 7⟩], [⟨2, [], 7⟩, ⟨3, [], 7⟩]⟩ ≠
      ChangeDiff.summaryOnly := by
  constructor
  · rfl
  · decide

set_option linter.unreachableTactic false in
set_option linter.unusedTactic false in
/-- C3 as amended: the content-diff selection is — 1 added and 1 removed:
diff of the removed commit's tree rebased onto the added commit's parents
against the added commit's tree; 1 added and any other number removed: the
added commit's patch; 1 removed and any other number added: the removed
commit's patch; otherwise summary only. -/
theorem C3_show_change_diff_characterization (mc : ModifiedChange) :
    show_change_diff mc = show_change_diff_amended mc := by
  obtain ⟨a, r⟩ := mc
  rcases a with _ | ⟨a1, _ | ⟨a2, arest⟩⟩ <;>
    rcases r with _ | ⟨r1, _ | ⟨r2, rrest⟩⟩ <;>
    simp only [show_change_diff, show_change_diff_amended, List.length_nil,
      List.length_cons, List.headD_cons] <;>
    repeat
      first
        | rfl
        | rw [if_pos (by omega)]
        | rw [if_neg (by omega)]

/-! ## Claim C4: meta-parents of a `ModifiedChange` -/

/-- C4: the derived meta-parents of a `ModifiedChange` are exactly the
de-duplicated change ids obtained by sending the parent commit ids of its
added commits (of its removed commits when nothing was added) through the
commit-id → change-id map, parents absent from the map contributing
nothing. -/
theorem C4_get_parent_changes_spec (mc : ModifiedChange) (m : List (Nat × Nat)) :
    get_parent_changes mc m = get_parent_changes_spec mc m := by
  by_cases h : mc.added_commits = [] <;>
    simp [get_parent_changes, get_parent_changes_spec, h, uniqueList_eq_dedupFirst]

/-! ## Claim C5: executor classification -/

/-- C5: a visited commit whose planned parents resolve (through the
rewritten-references table) to its current parents is only counted as
skipped and nothing is rewritten; otherwise the commit is rewritten and
exactly one of the abandoned / rebased-target / rebased-descendant counters
is incremented, according to the rebase outcome and to whether the old id
lies in the target set. -/
theorem C5_executor_classification (f : Commit → List Nat → RebasedCommit)
    (tids : List Nat) (s : ExecState) (c : Commit) (planned : List Nat) :
    (executeRebaseStep f tids s c planned).num_skipped_rebases =
      (if new_parents s.parent_mapping planned = c.parents
       then s.num_skipped_rebases + 1 else s.num_skipped_rebases) ∧
    (executeRebaseStep f tids s c planned).num_abandoned =
      (if new_parents s.parent_mapping planned ≠ c.parents ∧
          f c (new_parents s.parent_mapping planned) = RebasedCommit.abandoned
       then s.num_abandoned + 1 else s.num_abandoned) ∧
    (executeRebaseStep f tids s c planned).num_rebased_targets =
      (if new_parents s.parent_mapping planned ≠ c.parents ∧
          f c (new_parents s.parent_mapping planned) ≠ RebasedCommit.abandoned ∧
          c.id ∈ tids
       then s.num_rebased_targets + 1 else s.num_rebased_targets) ∧
    (executeRebaseStep f tids s c planned).num_rebased_descendants =
      (if new_parents s.parent_mapping planned ≠ c.parents ∧
          f c (new_parents s.parent_mapping planned) ≠ RebasedCommit.abandoned ∧
          c.id ∉ tids
       then s.num_rebased_descendants + 1 else s.num_rebased_descendants) ∧
    ((executeRebaseStep f tids s c planned).parent_mapping = s.parent_mapping ↔
      new_parents s.parent_mapping planned = c.parents) := by
  have happend : ∀ (l : List (Nat × List Nat)) (x : Nat × List Nat),
      ¬ (l ++ [x] = l) := by
    intro l x h
    have := congrArg List.length h
    simp at this
  by_cases h1 : new_parents s.parent_mapping planned = c.parents
  · unfold executeRebaseStep
    simp [h1]
  · cases hf : f c (new_parents s.parent_mapping planned) with
    | abandoned =>
      have hstep : executeRebaseStep f tids s c planned =
          { s with
            parent_mapping := s.parent_mapping ++ [(c.id, new_parents s.parent_mapping planned)]
            applied := s.applied ++ [(c.id, none)]
            num_abandoned := s.num_abandoned + 1 } := by
        unfold executeRebaseStep
        rw [if_neg h1, hf]
      rw [hstep]
      refine ⟨by simp [h1], by simp [h1, hf], by simp [hf], by simp [hf], ?_⟩
      simp only []
      constructor
      · intro h
        exact absurd h (happend _ _)
      · intro h
        exact absurd h h1
    | rewritten nid =>
      by_cases hmem : c.id ∈ tids
      · have hstep : executeRebaseStep f tids s c planned =
            { s with
              parent_mapping := s.parent_mapping ++ [(c.id, [nid])]
              applied := s.applied ++ [(c.id, some (nid, new_parents s.parent_mapping planned))]
              num_rebased_targets := s.num_rebased_targets + 1 } := by
          unfold executeRebaseStep
          rw [if_neg h1, hf]
          dsimp only
          rw [if_pos hmem]
        rw [hstep]
        refine ⟨by simp [h1], by simp [hf], by simp [h1, hf, hmem], by simp [hmem], ?_⟩
        constructor
        · intro h
          exact absurd h (happend _ _)
        · intro h
          exact absurd h h1
      · have hstep : executeRebaseStep f tids s c planned =
            { s with
              parent_mapping := s.parent_mapping ++ [(c.id, [nid])]
              applied := s.applied ++ [(c.id, some (nid, new_parents s.parent_mapping planned))]
              num_rebased_descendants := s.num_rebased_descendants + 1 } := by
          unfold executeRebaseStep
          rw [if_neg h1, hf]
          dsimp only
          rw [if_neg hmem]
        rw [hstep]
        refine ⟨by simp [h1], by simp [hf], by simp [hmem], by simp [h1, hf, hmem], ?_⟩
        constructor
        · intro h
          exact absurd h (happend _ _)
        · intro h
          exact absurd h h1

/-! ## Claim C9: the `no parents` error of `op diff` -/

/-- C9: operation resolution in `cmd_op_diff` fails with the no-parents
user error exactly when neither `--from` nor `--to` was given and the
resolved operation has no parents; with `--from` or `--to` given the error
cannot occur and each missing side defaults to the head operation. -/
theorem C9_op_diff_no_parents (resolveOpForLoad : Nat → Operation)
    (mergeOperations : List Nat → Operation) (headOp : Nat)
    (args : OperationDiffArgs) :
    (cmd_op_diff_resolve resolveOpForLoad mergeOperations headOp args =
        Except.error OpDiffError.noParents ↔
      args.fromArg = none ∧ args.toArg = none ∧
        (resolveOpForLoad (args.operation.getD headOp)).parents = []) ∧
    (args.fromArg.isSome ∨ args.toArg.isSome →
      cmd_op_diff_resolve resolveOpForLoad mergeOperations headOp args =
        Except.ok (resolveOpForLoad (args.fromArg.getD headOp),
                   resolveOpForLoad (args.toArg.getD headOp))) := by
  unfold cmd_op_diff_resolve
  by_cases hft : args.fromArg.isSome || args.toArg.isSome
  · rw [if_pos hft]
    constructor
    · constructor
      · intro h
        cases h
      · rintro ⟨h1, h2, _⟩
        rw [h1, h2] at hft
        simp [Option.isSome] at hft
    · intro _
      rfl
  · rw [if_neg hft]
    have hfn : args.fromArg = none := by
      cases h : args.fromArg with
      | none => rfl
      | some v => rw [h] at hft; simp at hft
    have htn : args.toArg = none := by
      cases h : args.toArg with
      | none => rfl
      | some v => rw [h] at hft; simp at hft
    constructor
    · by_cases hp : (resolveOpForLoad (args.operation.getD headOp)).parents = []
      · rw [if_pos (List.isEmpty_iff.mpr hp)]
        simp [hfn, htn, hp]
      · rw [if_neg (fun h => hp (List.isEmpty_iff.mp h))]
        simp [hp]
    · intro h
      rcases h with h | h <;> [rw [hfn] at h; rw [htn] at h] <;> cases h

/-- C9 witness: a concrete invocation with `--from` given resolves both
sides without raising the no-parents error. -/
theorem C9_op_diff_no_parents_witness :
    cmd_op_diff_resolve (fun n => ⟨n, [n]⟩) (fun _ => ⟨99, []⟩) 4
        ⟨none, some 7, none⟩ =
      Except.ok (⟨7, [7]⟩, ⟨4, [4]⟩) :=
  (C9_op_diff_no_parents (fun n => ⟨n, [n]⟩) (fun _ => ⟨99, []⟩) 4
    ⟨none, some 7, none⟩).2 (Or.inl rfl)

/-! ## Claim C6: destination-only resolution and the self-rebase error -/

/-- C6: with `insert_after` and `insert_before` both empty,
`compute_destination` yields `new_parents = destination`, `new_children = ∅`,
and fails exactly when rebase-descendants semantics was not requested and
some target commit equals some destination commit, with the self-rebase
error naming such a target. -/
theorem C6_compute_destination_only_destination (g : Dag)
    (rewritable : Nat → Bool) (target_commits destination_commits : List Commit)
    (rebase_descendants : Bool) :
    (∀ r, compute_destination g rewritable target_commits destination_commits
        [] [] rebase_descendants = Except.ok r → r = (destination_commits, [])) ∧
    ((∃ e, compute_destination g rewritable target_commits destination_commits
        [] [] rebase_descendants = Except.error e) ↔
      (rebase_descendants = false ∧
        ∃ t ∈ target_commits, t ∈ destination_commits)) ∧
    (∀ e, compute_destination g rewritable target_commits destination_commits
        [] [] rebase_descendants = Except.error e →
      ∃ t ∈ target_commits, t ∈ destination_commits ∧
        e = RebaseError.cannotRebaseOntoItself t.id) := by
  unfold compute_destination
  rw [if_neg (by simp : ¬(([] : List Commit) ≠ [] ∧ ([] : List Commit) ≠ []))]
  rw [if_neg (by simp : ¬(([] : List Commit) ≠ []))]
  rw [if_neg (by simp : ¬(([] : List Commit) ≠ []))]
  by_cases hrd : rebase_descendants
  · rw [if_pos hrd]
    refine ⟨?_, ?_, ?_⟩
    · intro r hr
      have hr2 : (Except.ok (destination_commits, ([] : List Commit)) :
          Except RebaseError (List Commit × List Commit)) = Except.ok r := hr
      cases hr2
      rfl
    · constructor
      · rintro ⟨e, he⟩
        have he2 : (Except.ok (destination_commits, ([] : List Commit)) :
            Except RebaseError (List Commit × List Commit)) = Except.error e := he
        cases he2
      · rintro ⟨he, _⟩
        rw [hrd] at he
        simp at he
    · intro e he
      have he2 : (Except.ok (destination_commits, ([] : List Commit)) :
          Except RebaseError (List Commit × List Commit)) = Except.error e := he
      cases he2
  · rw [if_neg hrd]
    cases hfind : target_commits.find? (fun c => destination_commits.contains c) with
    | some c =>
      have hcm : c ∈ target_commits := List.mem_of_find?_eq_some hfind
      have hcd : c ∈ destination_commits := by
        have := List.find?_some hfind
        simpa using this
      refine ⟨?_, ?_, ?_⟩
      · intro r hr
        have hr2 : (Except.error (RebaseError.cannotRebaseOntoItself c.id) :
            Except RebaseError (List Commit × List Commit)) = Except.ok r := hr
        cases hr2
      · constructor
        · intro _
          refine ⟨by simpa using hrd, c, hcm, hcd⟩
        · intro _
          exact ⟨RebaseError.cannotRebaseOntoItself c.id, rfl⟩
      · intro e he
        have he2 : (Except.error (RebaseError.cannotRebaseOntoItself c.id) :
            Except RebaseError (List Commit × List Commit)) = Except.error e := he
        cases he2
        exact ⟨c, hcm, hcd, rfl⟩
    | none =>
      have hnone : ∀ t ∈ target_commits, t ∉ destination_commits := by
        intro t ht hmem
        have := List.find?_eq_none.mp hfind t ht
        simp at this
        exact absurd hmem this
      refine ⟨?_, ?_, ?_⟩
      · intro r hr
        have hr2 : (Except.ok (destination_commits, ([] : List Commit)) :
            Except RebaseError (List Commit × List Commit)) = Except.ok r := hr
        cases hr2
        rfl
      · constructor
        · rintro ⟨e, he⟩
          have he2 : (Except.ok (destination_commits, ([] : List Commit)) :
              Except RebaseError (List Commit × List Commit)) = Except.error e := he
          cases he2
        · rintro ⟨_, t, ht, htd⟩
          exact absurd htd (hnone t ht)
      · intro e he
        have he2 : (Except.ok (destination_commits, ([] : List Commit)) :
            Except RebaseError (List Commit × List Commit)) = Except.error e := he
        cases he2

/-- C6 witness: a concrete destination-only resolution in which a target is
among the destinations fails with the self-rebase error. -/
theorem C6_compute_destination_only_destination_witness :
    (∃ e, compute_destination [⟨3, [], 3⟩] (fun _ => true) [⟨3, [], 3⟩]
      [⟨3, [], 3⟩] [] [] false = Except.error e) :=
  (C6_compute_destination_only_destination [⟨3, [], 3⟩] (fun _ => true)
    [⟨3, [], 3⟩] [⟨3, [], 3⟩] false).2.1.mpr
    ⟨rfl, ⟨3, [], 3⟩, by decide, by decide⟩

/-! ## Claim C1: the cycle check -/

/-- C1 counterexample: a configuration with
`new_children ⊆ descendants(new_parents)` (the new child `1` is a descendant
of the new parent `0`) on which the claim demands the cycle failure, yet
`compute_destination` (and with it `ensure_no_commit_loop`) succeeds. -/
theorem C1_subset_descendants_no_failure :
    (∀ ch ∈ [(1 : Nat)], ∃ p ∈ [(0 : Nat)],
      isAncestor [⟨1, [0], 10⟩, ⟨5, [], 50⟩, ⟨0, [], 0⟩] p ch = true) ∧
    compute_destination [⟨1, [0], 10⟩, ⟨5, [], 50⟩, ⟨0, [], 0⟩] (fun _ => true)
        [⟨5, [], 50⟩] [] [⟨0, [], 0⟩] [⟨1, [0], 10⟩] false =
      Except.ok ([⟨0, [], 0⟩], [⟨1, [0], 10⟩]) ∧
    ensure_no_commit_loop [⟨1, [0], 10⟩, ⟨5, [], 50⟩, ⟨0, [], 0⟩] [1] [0] =
      Except.ok () := by
  refine ⟨by decide, rfl, rfl⟩

/-- C1 as amended: the cycle failure occurs exactly when some commit is both
a descendant of a new child and an ancestor of a new parent (i.e. a path
from a new child to a new parent exists in the current DAG), and the error
names such a commit; mere containment of the new children in the
descendants of the new parents does not trigger it. -/
theorem C1_ensure_no_commit_loop_characterization (g : Dag)
    (children parents : List Nat) :
    ((∃ e, ensure_no_commit_loop g children parents = Except.error e) ↔
      ∃ c ∈ g, (∃ ch ∈ children, isAncestor g ch c.id = true) ∧
               (∃ p ∈ parents, isAncestor g c.id p = true)) ∧
    (∀ cid, ensure_no_commit_loop g children parents =
        Except.error (RebaseError.refusingToCreateLoop cid) →
      ∃ c ∈ g, c.id = cid ∧ (∃ ch ∈ children, isAncestor g ch c.id = true) ∧
               (∃ p ∈ parents, isAncestor g c.id p = true)) := by
  unfold ensure_no_commit_loop
  cases hfl : g.filter (fun c =>
      children.any (fun ch => isAncestor g ch c.id) &&
      parents.any (fun p => isAncestor g c.id p)) with
  | nil =>
    constructor
    · constructor
      · rintro ⟨e, he⟩
        cases he
      · rintro ⟨c, hcg, ⟨ch, hch, hach⟩, ⟨p, hp, hap⟩⟩
        have : c ∈ g.filter (fun c =>
            children.any (fun ch => isAncestor g ch c.id) &&
            parents.any (fun p => isAncestor g c.id p)) := by
          rw [List.mem_filter]
          refine ⟨hcg, ?_⟩
          rw [Bool.and_eq_true, List.any_eq_true, List.any_eq_true]
          exact ⟨⟨ch, hch, hach⟩, ⟨p, hp, hap⟩⟩
        rw [hfl] at this
        cases this
    · intro cid h
      cases h
  | cons c rest =>
    have hcmem : c ∈ g.filter (fun c =>
        children.any (fun ch => isAncestor g ch c.id) &&
        parents.any (fun p => isAncestor g c.id p)) := by
      rw [hfl]
      exact List.mem_cons_self c rest
    rw [List.mem_filter] at hcmem
    obtain ⟨hcg, hpred⟩ := hcmem
    rw [Bool.and_eq_true, List.any_eq_true, List.any_eq_true] at hpred
    obtain ⟨⟨ch, hch, hach⟩, ⟨p, hp, hap⟩⟩ := hpred
    constructor
    · constructor
      · intro _
        exact ⟨c, hcg, ⟨ch, hch, hach⟩, ⟨p, hp, hap⟩⟩
      · intro _
        exact ⟨RebaseError.refusingToCreateLoop c.id, rfl⟩
    · intro cid h
      simp only [List.head?] at h
      cases h
      exact ⟨c, hcg, rfl, ⟨ch, hch, hach⟩, ⟨p, hp, hap⟩⟩

/-- C1 witness: on a two-commit chain with the new child below the new
parent, the check fails and the reported commit is a genuine witness of the
child-to-parent path. -/
theorem C1_ensure_no_commit_loop_witness :
    ∃ c ∈ [(⟨1, [0], 10⟩ : Commit), ⟨0, [], 0⟩], c.id = 1 ∧
      (∃ ch ∈ [(0 : Nat)], isAncestor [⟨1, [0], 10⟩, ⟨0, [], 0⟩] ch c.id = true) ∧
      (∃ p ∈ [(1 : Nat)], isAncestor [⟨1, [0], 10⟩, ⟨0, [], 0⟩] c.id p = true) :=
  (C1_ensure_no_commit_loop_characterization [⟨1, [0], 10⟩, ⟨0, [], 0⟩]
    [0] [1]).2 1 rfl

/-! ## Claim C10: `Keep` never abandons -/

theorem foldl_executeRebaseStep_num_abandoned
    (f : Commit → List Nat → RebasedCommit)
    (hf : ∀ c ps, f c ps ≠ RebasedCommit.abandoned) (tids : List Nat)
    (pl : Commit → List Nat) :
    ∀ (l : List Commit) (s : ExecState),
      (l.foldl (fun s c => executeRebaseStep f tids s c (pl c)) s).num_abandoned =
        s.num_abandoned := by
  intro l
  induction l with
  | nil => intro s; rfl
  | cons c l ih =>
    intro s
    rw [List.foldl_cons, ih]
    unfold executeRebaseStep
    by_cases h1 : new_parents s.parent_mapping (pl c) = c.parents
    · simp [h1]
    · cases hfc : f c (new_parents s.parent_mapping (pl c)) with
      | abandoned => exact absurd hfc (hf c _)
      | rewritten nid =>
        rw [if_neg h1, hfc]
        by_cases hmem : c.id ∈ tids <;> simp [hmem]

/-- C10: with `empty_behavior = Keep` — the mode `cmd_rebase` selects
whenever `--skip-empty` is absent — `move_commits` abandons nothing:
`num_abandoned` is 0, so the `debug_assert_eq!(num_abandoned, 0)` in
`move_commits_transaction` always holds. -/
theorem C10_keep_never_abandons (g : Dag) (freshId : Nat → Nat)
    (newlyEmptied multiNonEmptyParentMerge : Commit → List Nat → Bool)
    (new_parent_ids : List Nat) (new_children target_commits : List Commit)
    (target_roots : List Nat) :
    (move_commits
      (rebase_commit_with_options (cmd_rebase_options false) freshId
        newlyEmptied multiNonEmptyParentMerge)
      g new_parent_ids new_children target_commits target_roots).num_abandoned = 0 := by
  unfold move_commits
  by_cases he : target_commits.isEmpty
  · rw [if_pos he]
    rfl
  · rw [if_neg he]
    have hf : ∀ c ps,
        rebase_commit_with_options (cmd_rebase_options false) freshId
          newlyEmptied multiNonEmptyParentMerge c ps ≠ RebasedCommit.abandoned := by
      intro c ps
      unfold rebase_commit_with_options cmd_rebase_options
      simp
    exact foldl_executeRebaseStep_num_abandoned _ hf _ _ _ initExecState

end JJ
